import Mathlib

/-
  Verification development for the spongix local cache maintenance subsystem
  (garbage collector), embedded shallowly from gc.go.

  Modelling conventions:
  * Go `uint64` values are `Nat` with arithmetic reduced modulo 2^64 at every
    operation that Go performs on `uint64` (`u64add`, `u64sub`).
  * `time.Time` is an integer timeline (seconds); `t.Before(u)` is `t < u`,
    `time.Now().Add(10 * time.Minute)` is `now + 600`.
  * `desync.ChunkID` is the 64-character hex string naming the chunk file;
    ids are opaque here, so hex-case canonicalisation of the underlying
    32-byte value is not modelled.
  * File names are `String`; Go's byte-indexed operations coincide with the
    character-indexed ones on the ASCII names involved.
-/

namespace Spongix

/-- modulus of Go's uint64 arithmetic. -/
def U64 : Nat := 2 ^ 64

/-- Go uint64 addition: wraps modulo 2^64. -/
def u64add (a b : Nat) : Nat := (a % U64 + b % U64) % U64

/-- Go uint64 subtraction: wraps modulo 2^64. -/
def u64sub (a b : Nat) : Nat := (a % U64 + U64 - b % U64) % U64

/-- ChunkId: desync.ChunkID, rendered as the hex string that names the chunk file. -/
abbrev ChunkId := String

/-- chunkStat from gc.go: id, size (int64, nonnegative for a regular file), mtime. -/
structure chunkStat where
  id : ChunkId
  size : Nat
  mtime : Int
deriving DecidableEq

/-- chunkLRU from gc.go. `dead` is the key set of the Go map
`map[desync.ChunkID]struct\x7b\x7d`, kept as a duplicate-free list. -/
structure chunkLRU where
  live : List chunkStat
  liveSize : Nat
  liveSizeMax : Nat
  dead : List ChunkId
  deadSize : Nat
deriving DecidableEq

/-- NewLRU from gc.go. -/
def NewLRU (liveSizeMax : Nat) : chunkLRU :=
  { live := [], liveSize := 0, liveSizeMax := liveSizeMax, dead := [], deadSize := 0 }

/-- chunkLRU.AddDead from gc.go: insert into the dead map, grow deadSize. -/
def chunkLRU.AddDead (l : chunkLRU) (stat : chunkStat) : chunkLRU :=
  { l with dead := l.dead.insert stat.id, deadSize := u64add l.deadSize stat.size }

/-- The predicate `isOlder` passed to sort.Search in chunkLRU.Add:
`l.live[i].mtime.Before(stat.mtime)`. sort.Search only probes indices in
range; out of range (where Go would panic) we return false. -/
def chunkLRU.isOlder (l : chunkLRU) (stat : chunkStat) (i : Nat) : Bool :=
  match l.live[i]? with
  | some c => decide (c.mtime < stat.mtime)
  | none => false

/-- Go's sort.Search binary-search loop:
`i, j := 0, n; for i < j { h := (i+j)/2; if !f(h) { i = h+1 } else { j = h } }; return i`,
written with an explicit iteration bound (the interval shrinks every
iteration, so `j - i` iterations always suffice — see searchLoop_spec) so
that the function reduces computationally. -/
def searchLoopF (f : Nat → Bool) : Nat → Nat → Nat → Nat
  | 0, i, _ => i
  | fuel + 1, i, j =>
    if i < j then
      if f ((i + j) / 2) then searchLoopF f fuel i ((i + j) / 2)
      else searchLoopF f fuel ((i + j) / 2 + 1) j
    else i

/-- sort.Search(j, f) when started at interval i..j. -/
def searchLoop (f : Nat → Bool) (i j : Nat) : Nat := searchLoopF f (j - i) i j

/-- chunkLRU.insertAt from gc.go. Both Go branches (append at the end, or
`append(l.live[:i+1], l.live[i:]...)` followed by overwriting slot `i`)
produce `l.live[:i] ++ [v] ++ l.live[i:]`. -/
def chunkLRU.insertAt (l : chunkLRU) (i : Nat) (v : chunkStat) : chunkLRU :=
  { l with live := l.live.take i ++ v :: l.live.drop i }

/-- The eviction loop of chunkLRU.Add:
`for l.liveSize > l.liveSizeMax { die := l.live[len(l.live)-1]; ... }`,
written with an explicit iteration bound (every round drops one live chunk,
so `live.length` iterations always suffice). When `live` is empty and
`liveSize > liveSizeMax` Go would panic on the index `-1`; that state is
unreachable while `liveSize` is the sum of the live sizes, and the model
returns the state unchanged there. -/
def evictLoopF : Nat → chunkLRU → chunkLRU
  | 0, l => l
  | fuel + 1, l =>
    if l.liveSizeMax < l.liveSize then
      match l.live.getLast? with
      | none => l
      | some die =>
        evictLoopF fuel
          { l with
            live := l.live.dropLast
            dead := l.dead.insert die.id
            deadSize := u64add l.deadSize die.size
            liveSize := u64sub l.liveSize die.size }
    else l

/-- The eviction loop, started with its sufficient iteration bound. -/
def chunkLRU.evictLoop (l : chunkLRU) : chunkLRU := evictLoopF l.live.length l

/-- chunkLRU.Add from gc.go: binary-search insert keeping descending mtime,
grow liveSize, then evict from the tail while over budget. -/
def chunkLRU.Add (l : chunkLRU) (stat : chunkStat) : chunkLRU :=
  let i := searchLoop (l.isOlder stat) 0 l.live.length
  let l1 := l.insertAt i stat
  chunkLRU.evictLoop { l1 with liveSize := u64add l1.liveSize stat.size }

/-- chunkLRU.IsDead from gc.go: membership in the dead map. -/
def chunkLRU.IsDead (l : chunkLRU) (id : ChunkId) : Bool :=
  l.dead.contains id

/-- chunkLRU.Dead from gc.go. -/
def chunkLRU.Dead (l : chunkLRU) : List ChunkId := l.dead

/-- One offer made to the classifier during the chunk walk: gc.go calls
either lru.Add (chunk fetched fine) or lru.AddDead (GetChunk failed). -/
inductive Offer
  | add (stat : chunkStat)
  | addDead (stat : chunkStat)
deriving DecidableEq

/-- The stat carried by an offer. -/
def Offer.stat : Offer → chunkStat
  | .add s => s
  | .addDead s => s

/-- Apply one offer to the classifier. -/
def applyOffer (l : chunkLRU) : Offer → chunkLRU
  | .add s => l.Add s
  | .addDead s => l.AddDead s

/-- Fold a sequence of offers over the classifier, as the chunk walk does. -/
def runOffers (l : chunkLRU) (os : List Offer) : chunkLRU :=
  os.foldl applyOffer l

/-- maxCacheDirPortion from gc.go: 0xffff * 4096. -/
def maxCacheDirPortion : Nat := 0xffff * 4096

/-- desync.CompressedChunkExt. -/
def CompressedChunkExt : String := ".cacnk"

/-- Go filepath.Ext: the suffix beginning at the final dot in the final
path element; empty if there is none. -/
def goExt (s : String) : String :=
  match (s.toList.reverse.takeWhile fun c => !(c == '.' || c == '/')), s.toList.reverse.dropWhile fun c => !(c == '.' || c == '/') with
  | pre, '.' :: _ => String.mk ('.' :: pre.reverse)
  | _, _ => ""

/-- Go strings.HasPrefix(name, ".tmp"). -/
def tmpPrefixed (s : String) : Bool :=
  ".tmp".toList.isPrefixOf s.toList

/-- The final path element (after the last slash), for talking about file names. -/
def baseName (s : String) : String :=
  String.mk (s.toList.reverse.takeWhile (fun c => !(c == '/'))).reverse

/-- hex digit test, as in encoding/hex. -/
def isHexDigit (c : Char) : Bool :=
  ('0' ≤ c && c ≤ '9') || ('a' ≤ c && c ≤ 'f') || ('A' ≤ c && c ≤ 'F')

/-- desync.ChunkIDFromString: 64 hex characters or an error. The id is kept
as the validated string (ids are opaque in this model). -/
def chunkIDFromString (s : String) : Option ChunkId :=
  if s.length = 64 && s.toList.all isHexDigit then some s else none

/-- The error value handed to a filepath.Walk callback, abstracted to the
branch the test at gc.go:199 selects: `.notExist` when `err == os.ErrNotExist`
holds — a Go interface identity comparison, true only for the bare
os.ErrNotExist sentinel value itself — and `.other` for every other error
value, including any *fs.PathError whatever errno it wraps. GoWalkError
below refines this with which error values filepath.Walk can actually
deliver. -/
inductive WalkErr
  | notExist
  | other
deriving DecidableEq

/-- A Go error value as handed to a filepath.Walk callback, keeping what the
identity test at gc.go:199 depends on: either the bare os.ErrNotExist
sentinel itself, or a *fs.PathError — the wrapper type os.Lstat, os.Open and
Readdirnames return and the only error kind filepath.Walk constructs for its
callback — with `notFound` recording whether the wrapped errno is ENOENT
(i.e. whether errors.Is(err, os.ErrNotExist) would hold). -/
inductive GoWalkError
  | sentinelNotExist
  | pathError (notFound : Bool)
deriving DecidableEq

/-- The Go comparison `err == os.ErrNotExist` (gc.go:199): interface
identity, true only for the sentinel value itself; a *fs.PathError has a
different dynamic type, so it compares false regardless of the errno it
wraps. -/
def eqErrNotExistSentinel : GoWalkError → Bool
  | .sentinelNotExist => true
  | .pathError _ => false

/-- The branch of the callback error handler (gc.go:198-204) an error value
selects, as a WalkErr: `.notExist` (return nil, walk continues) exactly when
the identity test accepts the value, `.other` (return err, pass aborts)
otherwise. -/
def GoWalkError.toWalkErr (e : GoWalkError) : WalkErr :=
  if eqErrNotExistSentinel e then .notExist else .other

/-- Whether filepath.Walk can actually deliver this error value to its
callback: Walk hands through the errors of os.Lstat and Readdirnames, which
are always *fs.PathError values; the bare os.ErrNotExist sentinel is never
delivered. -/
def walkDeliverable : GoWalkError → Bool
  | .sentinelNotExist => false
  | .pathError _ => true

/-- A race with concurrent deletion as the walk reports it: a *fs.PathError
wrapping ENOENT, from the lstat of a just-removed entry. -/
def notFoundRace : GoWalkError := .pathError true

/-- One event delivered to the chunk-store walk callback in gcOnce:
an error event (`err != nil`), a directory, or a regular file with the stat
fields gc.go reads plus whether `store.GetChunk` succeeds on its id. -/
inductive ChunkWalkEntry
  | errEvent (e : WalkErr)
  | dir
  | file (name : String) (size : Nat) (mtime : Int) (fetchOk : Bool)
deriving DecidableEq

/-- The chunk id a walk file entry classifies to: the file name must not be
`.tmp`-prefixed, must have the compressed-chunk extension, and its stem must
parse as a chunk id. -/
def entryChunkId : ChunkWalkEntry → Option ChunkId
  | .file name _ _ _ =>
    if tmpPrefixed name then none
    else if goExt name ≠ CompressedChunkExt then none
    else chunkIDFromString (name.take (name.length - (goExt name).length))
  | _ => none

/-- The chunk-walk callback of gcOnce, one event at a time. State is the
classifier together with the chunkDirs counter. `.error ()` aborts the walk
(a non-not-found callback error, or a malformed chunk file name). -/
def chunkWalkStep (st : chunkLRU × Nat) : ChunkWalkEntry → Except Unit (chunkLRU × Nat)
  | .errEvent .notExist => .ok st
  | .errEvent .other => .error ()
  | .dir => .ok (st.1, st.2 + 1)
  | .file name size mtime fetchOk =>
    if tmpPrefixed name then .ok st
    else if goExt name ≠ CompressedChunkExt then .ok st
    else
      match chunkIDFromString (name.take (name.length - (goExt name).length)) with
      | none => .error ()
      | some id =>
        if fetchOk then .ok (st.1.Add ⟨id, size, mtime⟩, st.2)
        else .ok (st.1.AddDead ⟨id, size, mtime⟩, st.2)

/-- The whole chunk-store walk of gcOnce over its event sequence. -/
def chunkWalk (entries : List ChunkWalkEntry) (maxCacheSize : Nat) : Except Unit (chunkLRU × Nat) :=
  entries.foldlM chunkWalkStep (NewLRU maxCacheSize, 0)

/-- desync.IndexChunk: id plus start/size (only the id matters to the GC). -/
structure IndexChunk where
  id : ChunkId
  start : Nat
  size : Nat
deriving DecidableEq

/-- desync.Index as the GC reads it: its ordered chunk list. -/
structure Index where
  chunks : List IndexChunk
deriving DecidableEq

/-- One event delivered to the index walk callback in gcOnce. For a regular
file: its path, mtime, the result of `indices.GetIndex` (none = load error),
and `contentOk`, the abstract outcome of parsing the assembled bytes as a
NAR archive / narinfo when every referenced chunk is fetchable (the part of
the integrity check performed by go-nix outside this repository). -/
inductive IndexWalkEntry
  | errEvent (e : WalkErr)
  | dir
  | file (path : String) (mtime : Int) (load : Option Index) (contentOk : Bool)
deriving DecidableEq

/-- Whether `store.GetChunk id` succeeds against the chunk files on disk:
some enumerated chunk file parses to this id and is fetchable. -/
def storeFetchable (cs : List ChunkWalkEntry) (id : ChunkId) : Bool :=
  cs.any fun e =>
    match e with
    | .file _ _ _ fetchOk => entryChunkId e = some id && fetchOk
    | _ => false

/-- Modelled from the spec: `newAssembler` / `assembleNarinfo` are not under
src/; per §4.4 and §6 assembly reads every referenced chunk through
`get_chunk`, which returns the bytes or an error, so assembly succeeds iff
every referenced chunk is fetchable. -/
def assembleOk (cs : List ChunkWalkEntry) (idx : Index) : Bool :=
  idx.chunks.all fun c => storeFetchable cs c.id

/-- The integrity-worker body from gcOnce: for `.nar` run checkNarContents
(assembly plus NAR parse; parse errors and the zero-entry archive are the
entry's `contentOk` field), for `.narinfo` run assembleNarinfo; any other
extension is not checked (the switch has no default case). Returns whether
the worker stores the path into deadIndices. -/
def workerMark (cs : List ChunkWalkEntry) (path : String) (idx : Index) (contentOk : Bool) : Bool :=
  if goExt path = ".nar" then !(assembleOk cs idx && contentOk)
  else if goExt path = ".narinfo" then !(assembleOk cs idx && contentOk)
  else false

/-- The referential check in the index walk of gcOnce: the loop over
`index.Chunks` that stops at the first chunk with `lru.IsDead`. -/
def referentialDead (lru : chunkLRU) (idx : Index) : Bool :=
  idx.chunks.any fun c => lru.IsDead c.id

/-- State accumulated by the index walk: the DeadIndexSet (key set of the
`sync.Map`, duplicate-free) and the trace of submissions sent to the
integrity channel. -/
structure IndexWalkState where
  deadIndices : List String
  subs : List (String × Index)
deriving DecidableEq

/-- The index-walk callback of gcOnce, one event at a time.
`if err != nil || info.IsDir() \x7b return err \x7d` continues on directories and
aborts on any callback error; a file is skipped unless it is `.nar`,
`.narinfo`, or `isOld` (mtime before `ignoreBeforeTime`); then the index is
loaded (failure aborts), submitted to the integrity workers (whose marking
is modelled synchronously), and marked dead when empty or when it references
a dead chunk. -/
def indexWalkStep (cs : List ChunkWalkEntry) (lru : chunkLRU) (ignoreBeforeTime : Int)
    (st : IndexWalkState) : IndexWalkEntry → Except Unit IndexWalkState
  | .errEvent _ => .error ()
  | .dir => .ok st
  | .file path mtime load contentOk =>
    if !(goExt path = ".nar" || goExt path = ".narinfo" || decide (mtime < ignoreBeforeTime)) then
      .ok st
    else
      match load with
      | none => .error ()
      | some index =>
        let st1 : IndexWalkState :=
          { deadIndices :=
              if workerMark cs path index contentOk then st.deadIndices.insert path
              else st.deadIndices
            subs := st.subs ++ [(path, index)] }
        if index.chunks.length = 0 then
          .ok { st1 with deadIndices := st1.deadIndices.insert path }
        else if referentialDead lru index then
          .ok { st1 with deadIndices := st1.deadIndices.insert path }
        else
          .ok st1

/-- The whole index walk of gcOnce over its event sequence. -/
def indexWalk (cs : List ChunkWalkEntry) (lru : chunkLRU) (ignoreBeforeTime : Int)
    (entries : List IndexWalkEntry) : Except Unit IndexWalkState :=
  entries.foldlM (indexWalkStep cs lru ignoreBeforeTime) ⟨[], []⟩

/-- ten minutes, on the seconds timeline. -/
def tenMinutes : Int := 600

/-- `maxCacheSize := (uint64(math.Pow(2, 30)) * proxy.CacheSize) - maxCacheDirPortion`,
in uint64 arithmetic. -/
def gcMaxCacheSize (cacheSize : Nat) : Nat :=
  u64sub (2 ^ 30 * cacheSize) maxCacheDirPortion

/-- The on-disk store as one GC pass observes it: the event sequences of the
two filepath.Walk traversals. -/
structure StoreState where
  chunkEntries : List ChunkWalkEntry
  indexEntries : List IndexWalkEntry
deriving DecidableEq

/-- The data a completed pass acts on. -/
structure PassResult where
  lru : chunkLRU
  chunkDirs : Nat
  deadIndices : List String
  subs : List (String × Index)
deriving DecidableEq

/-- One gcOnce pass up to (but excluding) deletion: chunk walk, then index
walk; `none` when either walk aborts the pass. -/
def gcOnce (cacheSize : Nat) (now : Int) (s : StoreState) : Option PassResult :=
  match chunkWalk s.chunkEntries (gcMaxCacheSize cacheSize) with
  | .error _ => none
  | .ok (lru, dirs) =>
    match indexWalk s.chunkEntries lru (now + tenMinutes) s.indexEntries with
    | .error _ => none
    | .ok iws => some ⟨lru, dirs, iws.deadIndices, iws.subs⟩

/-- A deletion performed by the pass driver: `os.Remove(path)` for a dead
index, `store.RemoveChunk(id)` for a dead chunk. -/
inductive GcAction
  | removeIndex (path : String)
  | removeChunk (id : ChunkId)
deriving DecidableEq

/-- The deletion trace of one pass: nothing when a walk aborted, otherwise
first every dead index, then every dead chunk, as in gcOnce. -/
def gcActions (cacheSize : Nat) (now : Int) (s : StoreState) : List GcAction :=
  match gcOnce cacheSize now s with
  | none => []
  | some r => r.deadIndices.map GcAction.removeIndex ++ r.lru.Dead.map GcAction.removeChunk

/-- Whether `RemoveChunk` on the dead set unlinks this chunk-walk file
(RemoveChunk removes the file of that id; `.tmp` files and foreign
extensions are not the file of any id). -/
def chunkFileDead (deadIds : List ChunkId) (e : ChunkWalkEntry) : Bool :=
  match entryChunkId e with
  | some id => deadIds.contains id
  | none => false

/-- Whether `os.Remove` over DeadIndexSet unlinks this index-walk file. -/
def indexFileRemoved (deadIdx : List String) : IndexWalkEntry → Bool
  | .file path _ _ _ => deadIdx.contains path
  | _ => false

/-- The store after the deletions of a completed pass (all deletions
succeed; walk event sequences keep their order, minus removed files). -/
def applyPass (r : PassResult) (s : StoreState) : StoreState :=
  { chunkEntries := s.chunkEntries.filter fun e => !(chunkFileDead r.lru.dead e)
    indexEntries := s.indexEntries.filter fun e => !(indexFileRemoved r.deadIndices e) }

/-! ### Arithmetic helper lemmas -/

theorem U64_eq : U64 = 18446744073709551616 := by norm_num [U64]

theorem u64add_eq (a b : Nat) (ha : a < U64) (hb : b < U64) (hab : a + b < U64) :
    u64add a b = a + b := by
  rw [u64add, Nat.mod_eq_of_lt ha, Nat.mod_eq_of_lt hb, Nat.mod_eq_of_lt hab]

theorem u64sub_eq (a b : Nat) (ha : a < U64) (hb : b ≤ a) : u64sub a b = a - b := by
  rw [u64sub, Nat.mod_eq_of_lt ha, Nat.mod_eq_of_lt (Nat.lt_of_le_of_lt hb ha)]
  have h1 : a % U64 = a := Nat.mod_eq_of_lt ha
  have hU : 0 < U64 := by rw [U64_eq]; omega
  have : a + U64 - b = U64 + (a - b) := by omega
  rw [this, Nat.add_mod_left, Nat.mod_eq_of_lt (by omega)]

/-! ### searchLoop specification

Go's sort.Search, run on a monotone predicate, returns the boundary index:
everything below the result fails the predicate, everything at or above it
(within range) satisfies it. -/

theorem searchLoopF_spec (f : Nat → Bool) (n : Nat)
    (hmono : ∀ k m, k ≤ m → m < n → f k = true → f m = true) :
    ∀ (fuel i j : Nat), j - i ≤ fuel → i ≤ j → j ≤ n →
    (∀ k, k < i → f k = false) →
    (∀ k, j ≤ k → k < n → f k = true) →
    i ≤ searchLoopF f fuel i j ∧ searchLoopF f fuel i j ≤ j ∧
      (∀ k, k < searchLoopF f fuel i j → f k = false) ∧
      (∀ k, searchLoopF f fuel i j ≤ k → k < n → f k = true) := by
  intro fuel
  induction fuel with
  | zero =>
    intro i j hfuel hij hjn hlow hhigh
    have hr : searchLoopF f 0 i j = i := rfl
    rw [hr]
    exact ⟨le_refl i, hij, hlow, fun k hk1 hk2 => hhigh k (by omega) hk2⟩
  | succ fuel ih =>
    intro i j hfuel hij hjn hlow hhigh
    rw [searchLoopF]
    by_cases hlt : i < j
    · rw [if_pos hlt]
      by_cases hf : f ((i + j) / 2) = true
      · rw [if_pos hf]
        have hrec := ih i ((i + j) / 2) (by omega) (by omega) (by omega) hlow
          (fun k hk1 hk2 => hmono _ _ hk1 hk2 hf)
        exact ⟨hrec.1, by omega, hrec.2.2⟩
      · rw [if_neg hf]
        have hf' : f ((i + j) / 2) = false := by
          cases hfv : f ((i + j) / 2) with
          | true => exact absurd hfv hf
          | false => rfl
        have hlow' : ∀ k, k < (i + j) / 2 + 1 → f k = false := by
          intro k hk
          by_cases hki : k < i
          · exact hlow k hki
          · cases hfk : f k with
            | false => rfl
            | true =>
              have : f ((i + j) / 2) = true := hmono k _ (by omega) (by omega) hfk
              rw [this] at hf'
              exact absurd hf' (by simp)
        have hrec := ih ((i + j) / 2 + 1) j (by omega) (by omega) hjn hlow' hhigh
        exact ⟨by omega, hrec.2.1, hrec.2.2⟩
    · rw [if_neg hlt]
      exact ⟨le_refl i, by omega, hlow, fun k hk1 hk2 => hhigh k (by omega) hk2⟩

theorem searchLoop_spec (f : Nat → Bool) (n : Nat)
    (hmono : ∀ k m, k ≤ m → m < n → f k = true → f m = true) :
    ∀ i j, i ≤ j → j ≤ n →
    (∀ k, k < i → f k = false) →
    (∀ k, j ≤ k → k < n → f k = true) →
    i ≤ searchLoop f i j ∧ searchLoop f i j ≤ j ∧
      (∀ k, k < searchLoop f i j → f k = false) ∧
      (∀ k, searchLoop f i j ≤ k → k < n → f k = true) := by
  intro i j hij hjn hlow hhigh
  exact searchLoopF_spec f n hmono (j - i) i j (le_refl _) hij hjn hlow hhigh

/-! ### Basic evictLoop lemmas -/

/-- Eviction only happens while liveSize strictly exceeds liveSizeMax:
at or below the budget the loop does nothing. -/
theorem evictLoopF_id (fuel : Nat) (l : chunkLRU) (h : l.liveSize ≤ l.liveSizeMax) :
    evictLoopF fuel l = l := by
  cases fuel with
  | zero => rfl
  | succ fuel => rw [evictLoopF, if_neg (Nat.not_lt.mpr h)]

theorem evictLoop_id (l : chunkLRU) (h : l.liveSize ≤ l.liveSizeMax) :
    l.evictLoop = l := evictLoopF_id l.live.length l h

/-- The dead set only grows through the eviction loop, and every id it adds
is the id of a chunk that was live. -/
theorem evictLoopF_dead_subset (fuel : Nat) : ∀ (l : chunkLRU) (id : ChunkId),
    id ∈ (evictLoopF fuel l).dead → id ∈ l.dead ∨ id ∈ l.live.map chunkStat.id := by
  induction fuel with
  | zero =>
    intro l id h
    exact Or.inl h
  | succ fuel ih =>
    intro l id h
    rw [evictLoopF] at h
    by_cases hgt : l.liveSizeMax < l.liveSize
    · rw [if_pos hgt] at h
      cases hlast : l.live.getLast? with
      | none =>
        rw [hlast] at h
        exact Or.inl h
      | some die =>
        rw [hlast] at h
        replace h : id ∈ (evictLoopF fuel
          { l with
            live := l.live.dropLast
            dead := l.dead.insert die.id
            deadSize := u64add l.deadSize die.size
            liveSize := u64sub l.liveSize die.size }).dead := h
        rcases ih _ id h with hd | hl
        · rcases List.mem_insert_iff.mp hd with he | hd'
          · subst he
            right
            have hdie : die ∈ l.live := by
              obtain ⟨hne, heq⟩ := List.mem_getLast?_eq_getLast
                (l := l.live) (x := die) (by simp [Option.mem_def, hlast])
              rw [heq]
              exact List.getLast_mem hne
            exact List.mem_map_of_mem chunkStat.id hdie
          · exact Or.inl hd'
        · right
          exact ((List.dropLast_sublist l.live).map chunkStat.id).mem hl
    · rw [if_neg hgt] at h
      exact Or.inl h

theorem evictLoop_dead_subset (l : chunkLRU) :
    ∀ id, id ∈ l.evictLoop.dead → id ∈ l.dead ∨ id ∈ l.live.map chunkStat.id :=
  fun id h => evictLoopF_dead_subset l.live.length l id h

/-! ### Sortedness of the live sequence -/

/-- The live sequence is in descending mtime order (freshest first). -/
def liveSorted (live : List chunkStat) : Prop :=
  live.Pairwise fun a b => b.mtime ≤ a.mtime

theorem insert_take_drop_sorted (live : List chunkStat) (stat : chunkStat) (i : Nat)
    (hsort : liveSorted live)
    (hbefore : ∀ k, k < i → ∀ c, live[k]? = some c → stat.mtime ≤ c.mtime)
    (hafter : ∀ k, i ≤ k → ∀ c, live[k]? = some c → c.mtime < stat.mtime) :
    liveSorted (live.take i ++ stat :: live.drop i) := by
  rw [liveSorted, List.pairwise_append]
  have hmem_take : ∀ a ∈ live.take i, stat.mtime ≤ a.mtime := by
    intro a ha
    obtain ⟨k, hk⟩ := List.mem_iff_getElem?.mp ha
    have hki : k < i := by
      have hlen : k < (live.take i).length := by
        by_contra hno
        rw [List.getElem?_eq_none (by omega)] at hk
        exact Option.noConfusion hk
      rw [List.length_take] at hlen
      omega
    have hk' : live[k]? = some a := by
      rw [List.getElem?_take, if_pos hki] at hk
      exact hk
    exact hbefore k hki a hk'
  have hmem_drop : ∀ b ∈ live.drop i, b.mtime < stat.mtime := by
    intro b hb
    obtain ⟨k, hk⟩ := List.mem_iff_getElem?.mp hb
    rw [List.getElem?_drop] at hk
    exact hafter (i + k) (by omega) b hk
  refine ⟨hsort.sublist (List.take_sublist i live), ?_, ?_⟩
  · rw [List.pairwise_cons]
    exact ⟨fun b hb => le_of_lt (hmem_drop b hb), hsort.sublist (List.drop_sublist i live)⟩
  · intro a ha b hb
    rcases List.mem_cons.mp hb with hb1 | hb2
    · rw [hb1]
      exact hmem_take a ha
    · exact le_trans (le_of_lt (hmem_drop b hb2)) (hmem_take a ha)

theorem evictLoopF_sorted (fuel : Nat) : ∀ l : chunkLRU, liveSorted l.live →
    liveSorted (evictLoopF fuel l).live := by
  induction fuel with
  | zero =>
    intro l h
    exact h
  | succ fuel ih =>
    intro l h
    rw [evictLoopF]
    by_cases hgt : l.liveSizeMax < l.liveSize
    · rw [if_pos hgt]
      cases hlast : l.live.getLast? with
      | none => exact h
      | some die => exact ih _ (h.sublist (List.dropLast_sublist l.live))
    · rw [if_neg hgt]
      exact h

theorem evictLoop_sorted (l : chunkLRU) (h : liveSorted l.live) :
    liveSorted l.evictLoop.live := evictLoopF_sorted l.live.length l h

/-- The monotonicity of the isOlder predicate over a sorted live list,
needed for sort.Search to return the exact boundary. -/
theorem isOlder_mono (l : chunkLRU) (stat : chunkStat) (hsort : liveSorted l.live) :
    ∀ k m, k ≤ m → m < l.live.length → l.isOlder stat k = true → l.isOlder stat m = true := by
  intro k m hkm hm hf
  rcases Nat.lt_or_ge k l.live.length with hk | hk
  · have hck := List.getElem?_eq_getElem (l := l.live) hk
    have hcm := List.getElem?_eq_getElem (l := l.live) hm
    rw [chunkLRU.isOlder, hck] at hf
    rw [chunkLRU.isOlder, hcm]
    simp only [decide_eq_true_eq] at hf ⊢
    rcases Nat.eq_or_lt_of_le hkm with he | hlt
    · subst he
      exact hf
    · have := (List.pairwise_iff_getElem.mp hsort) k m hk hm hlt
      omega
  · rw [chunkLRU.isOlder, List.getElem?_eq_none (by omega)] at hf
    exact absurd hf (by simp)

theorem Add_sorted (l : chunkLRU) (stat : chunkStat) (hsort : liveSorted l.live) :
    liveSorted (l.Add stat).live := by
  rw [chunkLRU.Add]
  apply evictLoop_sorted
  show liveSorted (l.live.take _ ++ stat :: l.live.drop _)
  have hspec := searchLoop_spec (l.isOlder stat) l.live.length (isOlder_mono l stat hsort)
    0 l.live.length (Nat.zero_le _) (le_refl _)
    (fun k hk => absurd hk (Nat.not_lt_zero k))
    (fun k hk1 hk2 => absurd (Nat.lt_of_le_of_lt hk1 hk2) (lt_irrefl _))
  obtain ⟨-, hle, hlow, hhigh⟩ := hspec
  apply insert_take_drop_sorted _ _ _ hsort
  · intro k hk c hc
    have hf := hlow k hk
    rw [chunkLRU.isOlder, hc] at hf
    simp only [decide_eq_false_iff_not] at hf
    omega
  · intro k hk c hc
    have hkn : k < l.live.length := by
      by_contra hno
      rw [List.getElem?_eq_none (by omega)] at hc
      exact Option.noConfusion hc
    have hf := hhigh k hk hkn
    rw [chunkLRU.isOlder, hc] at hf
    simp only [decide_eq_true_eq] at hf
    exact hf

/-- Folding any offer sequence keeps the live sequence sorted. -/
theorem runOffers_sorted (os : List Offer) :
    ∀ l, liveSorted l.live → liveSorted (runOffers l os).live := by
  induction os with
  | nil => intro l h; exact h
  | cons o os ih =>
    intro l h
    cases o with
    | add s => exact ih _ (Add_sorted l s h)
    | addDead s => exact ih _ h

/-! ### The classifier invariant -/

/-- The ids of a sequence of offers, in offer order. -/
def offeredIds (os : List Offer) : List ChunkId := os.map fun o => o.stat.id

/-- Invariant of the classifier after processing the offer sequence `os`
(the budget-compliance bound `liveSize ≤ liveSizeMax` is stated separately,
because it is briefly violated inside Add before the eviction loop runs). -/
structure LRUGood (os : List Offer) (l : chunkLRU) : Prop where
  maxFit : l.liveSizeMax < 2 ^ 63
  liveSize_eq : l.liveSize = (l.live.map chunkStat.size).sum
  sizes_lt : ∀ s ∈ l.live, s.size < 2 ^ 63
  liveMem : ∀ s ∈ l.live, Offer.add s ∈ os
  nodupLive : (l.live.map chunkStat.id).Nodup
  nodupDead : l.dead.Nodup
  disj : ∀ id ∈ l.live.map chunkStat.id, id ∉ l.dead
  coverL : ∀ id ∈ l.live.map chunkStat.id, id ∈ offeredIds os
  coverD : ∀ id ∈ l.dead, id ∈ offeredIds os
  coverO : ∀ id ∈ offeredIds os, id ∈ l.live.map chunkStat.id ∨ id ∈ l.dead
  addLive : ∀ s, Offer.add s ∈ os → s.id ∉ l.dead → s ∈ l.live
  deadStat : ∀ s, Offer.addDead s ∈ os → s.id ∈ l.dead

theorem NewLRU_good (max : Nat) (hmax : max < 2 ^ 63) : LRUGood [] (NewLRU max) := by
  constructor
  · exact hmax
  all_goals simp [NewLRU, offeredIds]

theorem evictLoopF_good (os : List Offer) : ∀ (fuel : Nat) (l : chunkLRU),
    l.live.length ≤ fuel →
    LRUGood os l → l.liveSize < U64 →
    LRUGood os (evictLoopF fuel l) ∧
      (evictLoopF fuel l).liveSize ≤ (evictLoopF fuel l).liveSizeMax ∧
      (evictLoopF fuel l).liveSizeMax = l.liveSizeMax := by
  intro fuel
  induction fuel with
  | zero =>
    intro l hfuel hg hlt
    have hnil : l.live = [] := List.length_eq_zero.mp (by omega)
    refine ⟨hg, ?_, rfl⟩
    show l.liveSize ≤ l.liveSizeMax
    rw [hg.liveSize_eq, hnil]
    simp
  | succ fuel ih =>
    intro l hfuel hg hlt
    rw [evictLoopF]
    by_cases hgt : l.liveSizeMax < l.liveSize
    · rw [if_pos hgt]
      cases hlast : l.live.getLast? with
      | none =>
        exfalso
        have : l.live = [] := List.getLast?_eq_none_iff.mp hlast
        rw [hg.liveSize_eq, this] at hgt
        simp at hgt
      | some die =>
        have hdie_mem : die ∈ l.live := by
          obtain ⟨hne, heq⟩ := List.mem_getLast?_eq_getLast
            (l := l.live) (x := die) (by simp [Option.mem_def, hlast])
          rw [heq]
          exact List.getLast_mem hne
        have hsplit : l.live.dropLast ++ [die] = l.live :=
          List.dropLast_append_getLast? die (by simp [Option.mem_def, hlast])
        have hsum : (l.live.map chunkStat.size).sum
            = (l.live.dropLast.map chunkStat.size).sum + die.size := by
          conv_lhs => rw [← hsplit]
          simp
        have hids : l.live.map chunkStat.id
            = l.live.dropLast.map chunkStat.id ++ [die.id] := by
          conv_lhs => rw [← hsplit]
          simp
        have hdie_notin : die.id ∉ l.live.dropLast.map chunkStat.id := by
          have hnd := hg.nodupLive
          rw [hids] at hnd
          intro hin
          exact (List.nodup_append.mp hnd).2.2 hin (by simp)
        have hdsz : die.size ≤ l.liveSize := by
          rw [hg.liveSize_eq]
          exact List.single_le_sum (fun x _ => Nat.zero_le x) die.size
            (List.mem_map_of_mem chunkStat.size hdie_mem)
        have heq' : u64sub l.liveSize die.size = l.liveSize - die.size :=
          u64sub_eq _ _ hlt hdsz
        have hgood' : LRUGood os
            { l with
              live := l.live.dropLast
              dead := l.dead.insert die.id
              deadSize := u64add l.deadSize die.size
              liveSize := u64sub l.liveSize die.size } := by
          constructor
          · exact hg.maxFit
          · show u64sub l.liveSize die.size = (l.live.dropLast.map chunkStat.size).sum
            rw [heq', hg.liveSize_eq, hsum]
            omega
          · intro s hs
            exact hg.sizes_lt s ((List.dropLast_sublist l.live).mem hs)
          · intro s hs
            exact hg.liveMem s ((List.dropLast_sublist l.live).mem hs)
          · have hnd := hg.nodupLive
            rw [hids] at hnd
            exact (List.nodup_append.mp hnd).1
          · exact hg.nodupDead.insert
          · intro id hid
            have hlive : id ∈ l.live.map chunkStat.id := by
              rw [hids]
              exact List.mem_append_left _ hid
            intro hins
            rcases List.mem_insert_iff.mp hins with he | hd
            · subst he
              exact hdie_notin hid
            · exact hg.disj id hlive hd
          · intro id hid
            apply hg.coverL
            rw [hids]
            exact List.mem_append_left _ hid
          · intro id hid
            rcases List.mem_insert_iff.mp hid with he | hd
            · subst he
              apply hg.coverL
              rw [hids]
              exact List.mem_append_right _ (by simp)
            · exact hg.coverD id hd
          · intro id hid
            rcases hg.coverO id hid with hl | hd
            · rw [hids] at hl
              rcases List.mem_append.mp hl with h1 | h2
              · exact Or.inl h1
              · right
                rw [List.mem_insert_iff]
                left
                simpa using h2
            · right
              rw [List.mem_insert_iff]
              exact Or.inr hd
          · intro s hs hnd
            have hnd1 : s.id ∉ l.dead := fun hc => hnd (List.mem_insert_iff.mpr (Or.inr hc))
            have hnd2 : s.id ≠ die.id := fun hc => hnd (List.mem_insert_iff.mpr (Or.inl hc))
            have hsl := hg.addLive s hs hnd1
            rw [← hsplit] at hsl
            rcases List.mem_append.mp hsl with h1 | h2
            · exact h1
            · exfalso
              apply hnd2
              have : s = die := by simpa using h2
              rw [this]
          · intro s hs
            exact List.mem_insert_iff.mpr (Or.inr (hg.deadStat s hs))
        have hlt' : u64sub l.liveSize die.size < U64 := by
          rw [heq']
          omega
        have hfuel' : l.live.dropLast.length ≤ fuel := by
          rw [List.length_dropLast]
          omega
        have hrec := ih _ hfuel' hgood' hlt'
        exact ⟨hrec.1, hrec.2.1, hrec.2.2⟩
    · rw [if_neg hgt]
      exact ⟨hg, Nat.le_of_not_lt hgt, rfl⟩

theorem evictLoop_good (os : List Offer) (l : chunkLRU)
    (hg : LRUGood os l) (hlt : l.liveSize < U64) :
    LRUGood os l.evictLoop ∧ l.evictLoop.liveSize ≤ l.evictLoop.liveSizeMax ∧
      l.evictLoop.liveSizeMax = l.liveSizeMax :=
  evictLoopF_good os l.live.length l (le_refl _) hg hlt

theorem pow63_lt_U64 : 2 ^ 63 + 2 ^ 63 ≤ U64 := by
  rw [U64_eq]
  norm_num

theorem insert_good (os : List Offer) (l : chunkLRU) (s : chunkStat) (i : Nat)
    (hg : LRUGood os l) (hle : l.liveSize ≤ l.liveSizeMax)
    (hsz : s.size < 2 ^ 63) (hfresh : s.id ∉ offeredIds os) :
    LRUGood (os ++ [Offer.add s])
      { l.insertAt i s with liveSize := u64add (l.insertAt i s).liveSize s.size } := by
  have hls_lt : l.liveSize < U64 := by
    have := hg.maxFit
    have := pow63_lt_U64
    omega
  have hsum_lt : l.liveSize + s.size < U64 := by
    have := hg.maxFit
    have := pow63_lt_U64
    omega
  have hadd : u64add l.liveSize s.size = l.liveSize + s.size :=
    u64add_eq _ _ hls_lt (by have := pow63_lt_U64; omega) hsum_lt
  have hperm : List.Perm (l.live.take i ++ s :: l.live.drop i) (s :: l.live) := by
    have h : List.Perm (l.live.take i ++ s :: l.live.drop i)
        (s :: (l.live.take i ++ l.live.drop i)) := List.perm_middle
    rwa [List.take_append_drop] at h
  have hids_perm : List.Perm ((l.live.take i ++ s :: l.live.drop i).map chunkStat.id)
      (s.id :: l.live.map chunkStat.id) := hperm.map chunkStat.id
  have hsid_notin : s.id ∉ l.live.map chunkStat.id := fun hc => hfresh (hg.coverL s.id hc)
  have hoff : offeredIds (os ++ [Offer.add s]) = offeredIds os ++ [s.id] := by
    simp [offeredIds, Offer.stat]
  constructor
  · exact hg.maxFit
  · show u64add l.liveSize s.size = ((l.live.take i ++ s :: l.live.drop i).map chunkStat.size).sum
    rw [hadd, (hperm.map chunkStat.size).sum_eq]
    simp [hg.liveSize_eq]
    omega
  · intro x hx
    rcases List.mem_cons.mp (hperm.mem_iff.mp hx) with h1 | h2
    · rw [h1]
      exact hsz
    · exact hg.sizes_lt x h2
  · intro x hx
    rcases List.mem_cons.mp (hperm.mem_iff.mp hx) with h1 | h2
    · rw [h1]
      exact List.mem_append_right _ (by simp)
    · exact List.mem_append_left _ (hg.liveMem x h2)
  · show ((l.live.take i ++ s :: l.live.drop i).map chunkStat.id).Nodup
    rw [hids_perm.nodup_iff]
    exact List.nodup_cons.mpr ⟨hsid_notin, hg.nodupLive⟩
  · exact hg.nodupDead
  · intro id hid
    rcases List.mem_cons.mp (hids_perm.mem_iff.mp hid) with h1 | h2
    · rw [h1]
      intro hc
      exact hfresh (hg.coverD s.id hc)
    · exact hg.disj id h2
  · intro id hid
    rw [hoff]
    rcases List.mem_cons.mp (hids_perm.mem_iff.mp hid) with h1 | h2
    · rw [h1]
      exact List.mem_append_right _ (by simp)
    · exact List.mem_append_left _ (hg.coverL id h2)
  · intro id hid
    rw [hoff]
    exact List.mem_append_left _ (hg.coverD id hid)
  · intro id hid
    rw [hoff] at hid
    rcases List.mem_append.mp hid with h1 | h2
    · rcases hg.coverO id h1 with hl | hd
      · left
        exact hids_perm.mem_iff.mpr (List.mem_cons.mpr (Or.inr hl))
      · exact Or.inr hd
    · left
      have : id = s.id := by simpa using h2
      rw [this]
      exact hids_perm.mem_iff.mpr (List.mem_cons.mpr (Or.inl rfl))
  · intro s' hs' hnd
    rcases List.mem_append.mp hs' with h1 | h2
    · exact hperm.mem_iff.mpr (List.mem_cons.mpr (Or.inr (hg.addLive s' h1 hnd)))
    · have : s' = s := by
        have h3 : Offer.add s' = Offer.add s := by simpa using h2
        exact Offer.add.inj h3
      rw [this]
      exact hperm.mem_iff.mpr (List.mem_cons.mpr (Or.inl rfl))
  · intro s' hs'
    rcases List.mem_append.mp hs' with h1 | h2
    · exact hg.deadStat s' h1
    · exfalso
      have h3 : Offer.addDead s' = Offer.add s := by simpa using h2
      exact Offer.noConfusion h3

theorem AddDead_good (os : List Offer) (l : chunkLRU) (s : chunkStat)
    (hg : LRUGood os l) (hfresh : s.id ∉ offeredIds os) :
    LRUGood (os ++ [Offer.addDead s]) (l.AddDead s) := by
  have hoff : offeredIds (os ++ [Offer.addDead s]) = offeredIds os ++ [s.id] := by
    simp [offeredIds, Offer.stat]
  constructor
  · exact hg.maxFit
  · exact hg.liveSize_eq
  · exact hg.sizes_lt
  · intro x hx
    exact List.mem_append_left _ (hg.liveMem x hx)
  · exact hg.nodupLive
  · exact hg.nodupDead.insert
  · intro id hid hins
    rcases List.mem_insert_iff.mp hins with he | hd
    · subst he
      exact hfresh (hg.coverL _ hid)
    · exact hg.disj id hid hd
  · intro id hid
    rw [hoff]
    exact List.mem_append_left _ (hg.coverL id hid)
  · intro id hid
    rw [hoff]
    rcases List.mem_insert_iff.mp hid with he | hd
    · subst he
      exact List.mem_append_right _ (by simp)
    · exact List.mem_append_left _ (hg.coverD id hd)
  · intro id hid
    rw [hoff] at hid
    rcases List.mem_append.mp hid with h1 | h2
    · rcases hg.coverO id h1 with hl | hd
      · exact Or.inl hl
      · exact Or.inr (List.mem_insert_iff.mpr (Or.inr hd))
    · right
      have : id = s.id := by simpa using h2
      rw [this]
      exact List.mem_insert_iff.mpr (Or.inl rfl)
  · intro s' hs' hnd
    rcases List.mem_append.mp hs' with h1 | h2
    · exact hg.addLive s' h1 (fun hc => hnd (List.mem_insert_iff.mpr (Or.inr hc)))
    · exfalso
      have h3 : Offer.add s' = Offer.addDead s := by simpa using h2
      exact Offer.noConfusion h3
  · intro s' hs'
    rcases List.mem_append.mp hs' with h1 | h2
    · exact List.mem_insert_iff.mpr (Or.inr (hg.deadStat s' h1))
    · have : s' = s := by
        have h3 : Offer.addDead s' = Offer.addDead s := by simpa using h2
        exact Offer.addDead.inj h3
      rw [this]
      exact List.mem_insert_iff.mpr (Or.inl rfl)

theorem Add_good (os : List Offer) (l : chunkLRU) (s : chunkStat)
    (hg : LRUGood os l) (hle : l.liveSize ≤ l.liveSizeMax)
    (hsz : s.size < 2 ^ 63) (hfresh : s.id ∉ offeredIds os) :
    LRUGood (os ++ [Offer.add s]) (l.Add s) ∧
      (l.Add s).liveSize ≤ (l.Add s).liveSizeMax ∧
      (l.Add s).liveSizeMax = l.liveSizeMax := by
  rw [chunkLRU.Add]
  have hg1 := insert_good os l s (searchLoop (l.isOlder s) 0 l.live.length) hg hle hsz hfresh
  have hlt1 : ({ l.insertAt (searchLoop (l.isOlder s) 0 l.live.length) s with
      liveSize := u64add (l.insertAt (searchLoop (l.isOlder s) 0 l.live.length) s).liveSize
        s.size } : chunkLRU).liveSize < U64 := by
    show u64add l.liveSize s.size < U64
    rw [u64add]
    exact Nat.mod_lt _ (by rw [U64_eq]; omega)
  exact evictLoop_good (os ++ [Offer.add s]) _ hg1 hlt1

theorem applyOffer_good (os : List Offer) (l : chunkLRU) (o : Offer)
    (hg : LRUGood os l) (hle : l.liveSize ≤ l.liveSizeMax)
    (hsz : o.stat.size < 2 ^ 63) (hfresh : o.stat.id ∉ offeredIds os) :
    LRUGood (os ++ [o]) (applyOffer l o) ∧
      (applyOffer l o).liveSize ≤ (applyOffer l o).liveSizeMax ∧
      (applyOffer l o).liveSizeMax = l.liveSizeMax := by
  cases o with
  | add s => exact Add_good os l s hg hle hsz hfresh
  | addDead s =>
    refine ⟨AddDead_good os l s hg hfresh, ?_, ?_⟩
    · exact hle
    · rfl

theorem runOffers_good_aux (rest : List Offer) : ∀ (os : List Offer) (l : chunkLRU),
    LRUGood os l → l.liveSize ≤ l.liveSizeMax →
    (∀ o ∈ rest, o.stat.size < 2 ^ 63) →
    (offeredIds (os ++ rest)).Nodup →
    LRUGood (os ++ rest) (runOffers l rest) ∧
      (runOffers l rest).liveSize ≤ (runOffers l rest).liveSizeMax ∧
      (runOffers l rest).liveSizeMax = l.liveSizeMax := by
  induction rest with
  | nil =>
    intro os l hg hle _ _
    refine ⟨?_, ?_, ?_⟩
    · simpa [runOffers] using hg
    · exact hle
    · rfl
  | cons o rest ih =>
    intro os l hg hle hsz hnd
    have hfresh : o.stat.id ∉ offeredIds os := by
      intro hc
      have hids : offeredIds (os ++ o :: rest)
          = offeredIds os ++ o.stat.id :: offeredIds rest := by
        simp [offeredIds]
      rw [hids] at hnd
      have hperm : List.Perm (offeredIds os ++ o.stat.id :: offeredIds rest)
          (o.stat.id :: (offeredIds os ++ offeredIds rest)) := List.perm_middle
      rw [hperm.nodup_iff, List.nodup_cons] at hnd
      exact hnd.1 (List.mem_append_left _ hc)
    have hstep := applyOffer_good os l o hg hle (hsz o (by simp)) hfresh
    have hrest : (offeredIds ((os ++ [o]) ++ rest)).Nodup := by
      rw [List.append_assoc]
      simpa using hnd
    have hrec := ih (os ++ [o]) (applyOffer l o) hstep.1 hstep.2.1
      (fun o' ho' => hsz o' (by simp [ho'])) hrest
    rw [List.append_assoc] at hrec
    simp only [List.singleton_append] at hrec
    refine ⟨hrec.1, ?_, ?_⟩
    · show (runOffers l (o :: rest)).liveSize ≤ (runOffers l (o :: rest)).liveSizeMax
      have : runOffers l (o :: rest) = runOffers (applyOffer l o) rest := by
        simp [runOffers]
      rw [this]
      exact hrec.2.1
    · have : runOffers l (o :: rest) = runOffers (applyOffer l o) rest := by
        simp [runOffers]
      rw [this, hrec.2.2, hstep.2.2]

/-- Top-level classifier invariant: folding any offer sequence with
duplicate-free ids and int64-sized chunks from a fresh classifier. -/
theorem runOffers_good (os : List Offer) (max : Nat) (hmax : max < 2 ^ 63)
    (hsz : ∀ o ∈ os, o.stat.size < 2 ^ 63)
    (hnd : (offeredIds os).Nodup) :
    LRUGood os (runOffers (NewLRU max) os) ∧
      (runOffers (NewLRU max) os).liveSize ≤ (runOffers (NewLRU max) os).liveSizeMax ∧
      (runOffers (NewLRU max) os).liveSizeMax = max := by
  have h := runOffers_good_aux os [] (NewLRU max) (NewLRU_good max hmax) (by simp [NewLRU])
    hsz (by simpa using hnd)
  simpa using h

/-! ### No eviction while the total stays within budget -/

theorem Add_no_evict (l : chunkLRU) (s : chunkStat)
    (heq : l.liveSize = (l.live.map chunkStat.size).sum)
    (hmax : l.liveSizeMax < 2 ^ 63) (hsz : s.size < 2 ^ 63)
    (hfit : l.liveSize + s.size ≤ l.liveSizeMax) :
    (l.Add s).dead = l.dead ∧
      (l.Add s).liveSize = l.liveSize + s.size ∧
      (l.Add s).liveSize = ((l.Add s).live.map chunkStat.size).sum ∧
      (l.Add s).liveSizeMax = l.liveSizeMax := by
  rw [chunkLRU.Add]
  have hbig := pow63_lt_U64
  have hadd : u64add l.liveSize s.size = l.liveSize + s.size :=
    u64add_eq _ _ (by omega) (by omega) (by omega)
  have hle1 : ({ l.insertAt (searchLoop (l.isOlder s) 0 l.live.length) s with
      liveSize := u64add (l.insertAt (searchLoop (l.isOlder s) 0 l.live.length) s).liveSize
        s.size } : chunkLRU).liveSize
      ≤ ({ l.insertAt (searchLoop (l.isOlder s) 0 l.live.length) s with
      liveSize := u64add (l.insertAt (searchLoop (l.isOlder s) 0 l.live.length) s).liveSize
        s.size } : chunkLRU).liveSizeMax := by
    show u64add l.liveSize s.size ≤ l.liveSizeMax
    rw [hadd]
    exact hfit
  rw [evictLoop_id _ hle1]
  have hperm : List.Perm
      (l.live.take (searchLoop (l.isOlder s) 0 l.live.length) ++
        s :: l.live.drop (searchLoop (l.isOlder s) 0 l.live.length)) (s :: l.live) := by
    have h : List.Perm
        (l.live.take (searchLoop (l.isOlder s) 0 l.live.length) ++
          s :: l.live.drop (searchLoop (l.isOlder s) 0 l.live.length))
        (s :: (l.live.take (searchLoop (l.isOlder s) 0 l.live.length) ++
          l.live.drop (searchLoop (l.isOlder s) 0 l.live.length))) := List.perm_middle
    rwa [List.take_append_drop] at h
  refine ⟨rfl, hadd, ?_, rfl⟩
  show u64add l.liveSize s.size
      = ((l.live.take (searchLoop (l.isOlder s) 0 l.live.length) ++
        s :: l.live.drop (searchLoop (l.isOlder s) 0 l.live.length)).map chunkStat.size).sum
  rw [hadd, (hperm.map chunkStat.size).sum_eq]
  simp [heq]
  omega

theorem runAdds_no_evict (stats : List chunkStat) : ∀ (l : chunkLRU),
    l.liveSize = (l.live.map chunkStat.size).sum →
    l.liveSizeMax < 2 ^ 63 →
    (∀ s ∈ stats, s.size < 2 ^ 63) →
    l.liveSize + (stats.map chunkStat.size).sum ≤ l.liveSizeMax →
    (runOffers l (stats.map Offer.add)).dead = l.dead ∧
      (runOffers l (stats.map Offer.add)).liveSize
        = l.liveSize + (stats.map chunkStat.size).sum ∧
      (runOffers l (stats.map Offer.add)).liveSizeMax = l.liveSizeMax := by
  induction stats with
  | nil =>
    intro l heq hmax hsz hfit
    refine ⟨rfl, by simp [runOffers], rfl⟩
  | cons s rest ih =>
    intro l heq hmax hsz hfit
    have hssz : s.size < 2 ^ 63 := hsz s (by simp)
    have hsum : (List.map chunkStat.size (s :: rest)).sum
        = s.size + (rest.map chunkStat.size).sum := by simp
    have hstep := Add_no_evict l s heq hmax hssz (by rw [hsum] at hfit; omega)
    have hrun : runOffers l ((s :: rest).map Offer.add)
        = runOffers (l.Add s) (rest.map Offer.add) := by
      simp [runOffers, applyOffer]
    rw [hrun]
    have hrec := ih (l.Add s) hstep.2.2.1 (by rw [hstep.2.2.2]; exact hmax)
      (fun x hx => hsz x (by simp [hx]))
      (by rw [hstep.2.1, hstep.2.2.2]; rw [hsum] at hfit; omega)
    refine ⟨by rw [hrec.1, hstep.1], ?_, by rw [hrec.2.2, hstep.2.2.2]⟩
    rw [hrec.2.1, hstep.2.1, hsum]
    omega

/-! ### Chunk walk correspondence -/

/-- The offer a chunk-walk event contributes to the classifier (none for
events that are skipped and for abort events). -/
def entryOffer : ChunkWalkEntry → Option Offer
  | .file name size mtime fetchOk =>
    match entryChunkId (.file name size mtime fetchOk) with
    | some id =>
      some (if fetchOk then Offer.add ⟨id, size, mtime⟩ else Offer.addDead ⟨id, size, mtime⟩)
    | none => none
  | _ => none

/-- Whether a chunk-walk event makes the walk return an error: a
non-not-found callback error, or a malformed chunk file name. -/
def chunkEntryAborts : ChunkWalkEntry → Bool
  | .errEvent .other => true
  | .errEvent .notExist => false
  | .dir => false
  | .file name _ _ _ =>
    !tmpPrefixed name && (goExt name == CompressedChunkExt) &&
      (chunkIDFromString (name.take (name.length - (goExt name).length))).isNone

theorem chunkWalkStep_err (st : chunkLRU × Nat) (e : ChunkWalkEntry)
    (h : chunkEntryAborts e = true) : chunkWalkStep st e = .error () := by
  cases e with
  | errEvent we =>
    cases we with
    | notExist => simp [chunkEntryAborts] at h
    | other => rfl
  | dir => simp [chunkEntryAborts] at h
  | file name size mtime fetchOk =>
    simp only [chunkEntryAborts, Bool.and_eq_true, Bool.not_eq_true', beq_iff_eq,
      Option.isNone_iff_eq_none] at h
    obtain ⟨⟨htmp, hext⟩, hid⟩ := h
    rw [chunkWalkStep]
    rw [if_neg (by simp [htmp]), if_neg (by simp [hext]), hid]

theorem chunkWalkStep_ok (st : chunkLRU × Nat) (e : ChunkWalkEntry)
    (h : chunkEntryAborts e = false) :
    ∃ d, chunkWalkStep st e
      = .ok ((match entryOffer e with
        | some o => applyOffer st.1 o
        | none => st.1), d) := by
  cases e with
  | errEvent we =>
    cases we with
    | notExist => exact ⟨st.2, rfl⟩
    | other => simp [chunkEntryAborts] at h
  | dir => exact ⟨st.2 + 1, rfl⟩
  | file name size mtime fetchOk =>
    rw [chunkWalkStep]
    by_cases htmp : tmpPrefixed name
    · refine ⟨st.2, ?_⟩
      rw [if_pos htmp]
      simp [entryOffer, entryChunkId, htmp]
    · rw [if_neg htmp]
      have htmp' : tmpPrefixed name = false := by
        cases hv : tmpPrefixed name with
        | false => rfl
        | true => exact absurd hv htmp
      by_cases hext : goExt name = CompressedChunkExt
      · rw [if_neg (by simp [hext]), hext]
        cases hid : chunkIDFromString (name.take (name.length - CompressedChunkExt.length)) with
        | none =>
          exfalso
          rw [chunkEntryAborts.eq_def] at h
          simp only [htmp', hext, hid] at h
          simp at h
        | some id =>
          refine ⟨st.2, ?_⟩
          have hoff : entryOffer (.file name size mtime fetchOk)
              = some (if fetchOk then Offer.add ⟨id, size, mtime⟩
                else Offer.addDead ⟨id, size, mtime⟩) := by
            rw [entryOffer.eq_def]
            simp only [entryChunkId, htmp', hext, Bool.false_eq_true, if_false, hid]
            simp
          rw [hoff]
          by_cases hf : fetchOk <;> simp [applyOffer, hf]
      · refine ⟨st.2, ?_⟩
        rw [if_pos (by simp [hext])]
        have hoff : entryOffer (.file name size mtime fetchOk) = none := by
          rw [entryOffer.eq_def]
          simp only [entryChunkId, htmp', hext, Bool.false_eq_true, if_false]
          simp [hext]
        rw [hoff]

theorem foldChunk_ok (entries : List ChunkWalkEntry) :
    ∀ st : chunkLRU × Nat, (∀ e ∈ entries, chunkEntryAborts e = false) →
    ∃ d, entries.foldlM chunkWalkStep st
      = .ok (runOffers st.1 (entries.filterMap entryOffer), d) := by
  induction entries with
  | nil =>
    intro st _
    exact ⟨st.2, rfl⟩
  | cons e es ih =>
    intro st h
    obtain ⟨d1, hstep⟩ := chunkWalkStep_ok st e (h e (by simp))
    rw [List.foldlM_cons, hstep]
    cases hoff : entryOffer e with
    | none =>
      obtain ⟨d2, hrec⟩ := ih (st.1, d1) (fun x hx => h x (by simp [hx]))
      refine ⟨d2, ?_⟩
      show es.foldlM chunkWalkStep (st.1, d1)
          = .ok (runOffers st.1 ((e :: es).filterMap entryOffer), d2)
      rw [List.filterMap_cons_none hoff]
      exact hrec
    | some o =>
      obtain ⟨d2, hrec⟩ := ih (applyOffer st.1 o, d1) (fun x hx => h x (by simp [hx]))
      refine ⟨d2, ?_⟩
      show es.foldlM chunkWalkStep (applyOffer st.1 o, d1)
          = .ok (runOffers st.1 ((e :: es).filterMap entryOffer), d2)
      rw [List.filterMap_cons_some hoff]
      have hr : runOffers st.1 (o :: es.filterMap entryOffer)
          = runOffers (applyOffer st.1 o) (es.filterMap entryOffer) := by
        simp [runOffers]
      rw [hr]
      exact hrec

theorem foldChunk_no_abort (entries : List ChunkWalkEntry) :
    ∀ (st : chunkLRU × Nat) (out : chunkLRU × Nat),
    entries.foldlM chunkWalkStep st = .ok out →
    ∀ e ∈ entries, chunkEntryAborts e = false := by
  induction entries with
  | nil =>
    intro st out _ e he
    simp at he
  | cons e es ih =>
    intro st out h e' he'
    rcases List.mem_cons.mp he' with h1 | h2
    · subst h1
      cases hab : chunkEntryAborts e' with
      | false => rfl
      | true =>
        exfalso
        rw [List.foldlM_cons, chunkWalkStep_err st e' hab] at h
        exact Except.noConfusion h
    · cases hstep : chunkWalkStep st e with
      | error u =>
        exfalso
        rw [List.foldlM_cons, hstep] at h
        exact Except.noConfusion h
      | ok st1 =>
        rw [List.foldlM_cons, hstep] at h
        exact ih st1 out h e' h2

/-! ### Index walk correspondence -/

/-- Whether the index walk examines this event (rather than skipping it):
a regular file that is `.nar`, `.narinfo`, or older than `ignoreBeforeTime`. -/
def indexEntryExamined (ibt : Int) : IndexWalkEntry → Bool
  | .file path mtime _ _ =>
    (decide (goExt path = ".nar") || decide (goExt path = ".narinfo") || decide (mtime < ibt))
  | _ => false

/-- Whether an index-walk event makes the walk return an error: any callback
error, or a load failure of an examined file. -/
def indexEntryAborts (ibt : Int) : IndexWalkEntry → Bool
  | .errEvent _ => true
  | .dir => false
  | .file path mtime load contentOk =>
    indexEntryExamined ibt (.file path mtime load contentOk) && load.isNone

/-- Whether processing this event stores path `p` into DeadIndexSet:
the event is an examined file at `p` whose loaded index fails the integrity
check, is empty, or references a dead chunk. -/
def entryMarks (cs : List ChunkWalkEntry) (lru : chunkLRU) (ibt : Int) (p : String) :
    IndexWalkEntry → Bool
  | .file path mtime (some idx) contentOk =>
    indexEntryExamined ibt (.file path mtime (some idx) contentOk) && decide (path = p) &&
      (workerMark cs path idx contentOk || decide (idx.chunks.length = 0) ||
        referentialDead lru idx)
  | _ => false

/-- The state produced by the index walk callback on an examined file whose
index loaded (plumbing for reasoning about indexWalkStep, mirroring its
file branch). -/
def indexFileResult (cs : List ChunkWalkEntry) (lru : chunkLRU)
    (st : IndexWalkState) (path : String) (idx : Index) (contentOk : Bool) : IndexWalkState :=
  { deadIndices :=
      (if idx.chunks.length = 0 ∨ referentialDead lru idx then
        (if workerMark cs path idx contentOk then st.deadIndices.insert path
          else st.deadIndices).insert path
        else
        (if workerMark cs path idx contentOk then st.deadIndices.insert path
          else st.deadIndices))
    subs := st.subs ++ [(path, idx)] }

theorem indexWalkStep_file_ok (cs : List ChunkWalkEntry) (lru : chunkLRU) (ibt : Int)
    (st : IndexWalkState) (path : String) (mtime : Int) (idx : Index) (contentOk : Bool)
    (hex : (decide (goExt path = ".nar") || decide (goExt path = ".narinfo")
      || decide (mtime < ibt)) = true) :
    indexWalkStep cs lru ibt st (.file path mtime (some idx) contentOk)
      = .ok (indexFileResult cs lru st path idx contentOk) := by
  rw [indexWalkStep, indexFileResult]
  rw [if_neg (by simp [hex])]
  by_cases hemp : idx.chunks.length = 0
  · rw [if_pos hemp, if_pos (Or.inl hemp)]
  · rw [if_neg hemp]
    by_cases href : referentialDead lru idx = true
    · rw [if_pos href, if_pos (Or.inr href)]
    · rw [if_neg href,
        if_neg (show ¬(idx.chunks.length = 0 ∨ referentialDead lru idx = true) by
          simp [hemp, href])]

theorem indexFileResult_mem (cs : List ChunkWalkEntry) (lru : chunkLRU)
    (st : IndexWalkState) (path : String) (idx : Index) (contentOk : Bool) (p : String) :
    p ∈ (indexFileResult cs lru st path idx contentOk).deadIndices ↔
      (p ∈ st.deadIndices ∨ (p = path ∧ (workerMark cs path idx contentOk = true ∨
        idx.chunks.length = 0 ∨ referentialDead lru idx = true))) := by
  rw [indexFileResult]
  by_cases hw : workerMark cs path idx contentOk = true <;>
    by_cases hemp : idx.chunks.length = 0 <;>
    by_cases href : referentialDead lru idx = true <;>
    simp [hw, hemp, href, List.mem_insert_iff] <;>
    tauto

theorem indexWalkStep_err (cs : List ChunkWalkEntry) (lru : chunkLRU) (ibt : Int)
    (st : IndexWalkState) (e : IndexWalkEntry) (h : indexEntryAborts ibt e = true) :
    indexWalkStep cs lru ibt st e = .error () := by
  cases e with
  | errEvent we => rfl
  | dir => simp [indexEntryAborts] at h
  | file path mtime load contentOk =>
    rw [indexEntryAborts] at h
    simp only [Bool.and_eq_true, Option.isNone_iff_eq_none] at h
    obtain ⟨hex, hload⟩ := h
    subst hload
    have hex' : (decide (goExt path = ".nar") || decide (goExt path = ".narinfo")
        || decide (mtime < ibt)) = true := hex
    simp [indexWalkStep, hex']

theorem indexWalkStep_ok (cs : List ChunkWalkEntry) (lru : chunkLRU) (ibt : Int)
    (st : IndexWalkState) (e : IndexWalkEntry) (h : indexEntryAborts ibt e = false) :
    ∃ st', indexWalkStep cs lru ibt st e = .ok st' ∧
      ∀ p, p ∈ st'.deadIndices ↔
        (p ∈ st.deadIndices ∨ entryMarks cs lru ibt p e = true) := by
  cases e with
  | errEvent we => simp [indexEntryAborts] at h
  | dir =>
    refine ⟨st, rfl, ?_⟩
    intro p
    simp [entryMarks]
  | file path mtime load contentOk =>
    by_cases hex : indexEntryExamined ibt (.file path mtime load contentOk) = true
    · have hex' : (decide (goExt path = ".nar") || decide (goExt path = ".narinfo")
          || decide (mtime < ibt)) = true := hex
      cases load with
      | none =>
        exfalso
        rw [indexEntryAborts] at h
        simp [hex] at h
      | some idx =>
        refine ⟨indexFileResult cs lru st path idx contentOk,
          indexWalkStep_file_ok cs lru ibt st path mtime idx contentOk hex', ?_⟩
        intro p
        rw [indexFileResult_mem]
        have hm : entryMarks cs lru ibt p (.file path mtime (some idx) contentOk) = true
            ↔ (p = path ∧ (workerMark cs path idx contentOk = true ∨
              idx.chunks.length = 0 ∨ referentialDead lru idx = true)) := by
          rw [entryMarks, hex]
          simp only [Bool.true_and, Bool.and_eq_true, Bool.or_eq_true, decide_eq_true_eq]
          constructor
          · rintro ⟨h1, h2⟩
            exact ⟨h1.symm, by tauto⟩
          · rintro ⟨h1, h2⟩
            exact ⟨h1.symm, by tauto⟩
        rw [hm]
    · have hex' : indexEntryExamined ibt (.file path mtime load contentOk) = false := by
        cases hv : indexEntryExamined ibt (.file path mtime load contentOk) with
        | false => rfl
        | true => exact absurd hv hex
      have hex'' : (decide (goExt path = ".nar") || decide (goExt path = ".narinfo")
          || decide (mtime < ibt)) = false := hex'
      refine ⟨st, ?_, ?_⟩
      · simp [indexWalkStep, hex'']
      · intro p
        rw [entryMarks.eq_def]
        cases load with
        | none => simp
        | some idx =>
          have hex3 : indexEntryExamined ibt (.file path mtime (some idx) contentOk)
              = false := hex'
          simp [hex3]

theorem foldIndex_ok (cs : List ChunkWalkEntry) (lru : chunkLRU) (ibt : Int)
    (entries : List IndexWalkEntry) :
    ∀ st : IndexWalkState, (∀ e ∈ entries, indexEntryAborts ibt e = false) →
    ∃ st', entries.foldlM (indexWalkStep cs lru ibt) st = .ok st' ∧
      ∀ p, p ∈ st'.deadIndices ↔
        (p ∈ st.deadIndices ∨ ∃ e ∈ entries, entryMarks cs lru ibt p e = true) := by
  induction entries with
  | nil =>
    intro st _
    refine ⟨st, rfl, ?_⟩
    intro p
    simp
  | cons e es ih =>
    intro st h
    obtain ⟨st1, hstep, hmem1⟩ := indexWalkStep_ok cs lru ibt st e (h e (by simp))
    obtain ⟨st2, hrec, hmem2⟩ := ih st1 (fun x hx => h x (by simp [hx]))
    refine ⟨st2, ?_, ?_⟩
    · rw [List.foldlM_cons, hstep]
      exact hrec
    · intro p
      rw [hmem2 p]
      constructor
      · intro hc
        rcases hc with h1 | h2
        · rcases (hmem1 p).mp h1 with h3 | h4
          · exact Or.inl h3
          · exact Or.inr ⟨e, by simp, h4⟩
        · obtain ⟨x, hx, hmk⟩ := h2
          exact Or.inr ⟨x, by simp [hx], hmk⟩
      · intro hc
        rcases hc with h1 | h2
        · exact Or.inl ((hmem1 p).mpr (Or.inl h1))
        · obtain ⟨x, hx, hmk⟩ := h2
          rcases List.mem_cons.mp hx with he | hes
          · subst he
            exact Or.inl ((hmem1 p).mpr (Or.inr hmk))
          · exact Or.inr ⟨x, hes, hmk⟩

theorem foldIndex_no_abort (cs : List ChunkWalkEntry) (lru : chunkLRU) (ibt : Int)
    (entries : List IndexWalkEntry) :
    ∀ (st : IndexWalkState) (out : IndexWalkState),
    entries.foldlM (indexWalkStep cs lru ibt) st = .ok out →
    ∀ e ∈ entries, indexEntryAborts ibt e = false := by
  induction entries with
  | nil =>
    intro st out _ e he
    simp at he
  | cons e es ih =>
    intro st out h e' he'
    rcases List.mem_cons.mp he' with h1 | h2
    · subst h1
      cases hab : indexEntryAborts ibt e' with
      | false => rfl
      | true =>
        exfalso
        rw [List.foldlM_cons, indexWalkStep_err cs lru ibt st e' hab] at h
        exact Except.noConfusion h
    · cases hstep : indexWalkStep cs lru ibt st e with
      | error u =>
        exfalso
        rw [List.foldlM_cons, hstep] at h
        exact Except.noConfusion h
      | ok st1 =>
        rw [List.foldlM_cons, hstep] at h
        exact ih st1 out h e' h2

/-! ### gcOnce characterisation -/

theorem gcOnce_some (cacheSize : Nat) (now : Int) (s : StoreState) (r : PassResult)
    (h : gcOnce cacheSize now s = some r) :
    (∀ e ∈ s.chunkEntries, chunkEntryAborts e = false) ∧
    (∀ e ∈ s.indexEntries, indexEntryAborts (now + tenMinutes) e = false) ∧
    r.lru = runOffers (NewLRU (gcMaxCacheSize cacheSize))
      (s.chunkEntries.filterMap entryOffer) ∧
    (∀ p, p ∈ r.deadIndices ↔
      ∃ e ∈ s.indexEntries,
        entryMarks s.chunkEntries r.lru (now + tenMinutes) p e = true) := by
  rw [gcOnce] at h
  cases hcw : chunkWalk s.chunkEntries (gcMaxCacheSize cacheSize) with
  | error u =>
    rw [hcw] at h
    exact Option.noConfusion h
  | ok pr =>
    obtain ⟨lru, dirs⟩ := pr
    rw [hcw] at h
    replace h : (match indexWalk s.chunkEntries lru (now + tenMinutes) s.indexEntries with
        | Except.error _ => (none : Option PassResult)
        | Except.ok iws => some ⟨lru, dirs, iws.deadIndices, iws.subs⟩) = some r := h
    have hnoc : ∀ e ∈ s.chunkEntries, chunkEntryAborts e = false :=
      foldChunk_no_abort s.chunkEntries _ _ hcw
    obtain ⟨d, hok⟩ := foldChunk_ok s.chunkEntries (NewLRU (gcMaxCacheSize cacheSize), 0) hnoc
    have hlru : lru = runOffers (NewLRU (gcMaxCacheSize cacheSize))
        (s.chunkEntries.filterMap entryOffer) := by
      have h2 : chunkWalk s.chunkEntries (gcMaxCacheSize cacheSize)
          = .ok (runOffers (NewLRU (gcMaxCacheSize cacheSize))
            (s.chunkEntries.filterMap entryOffer), d) := hok
      rw [hcw] at h2
      have := Except.ok.inj h2
      exact congrArg Prod.fst this
    cases hiw : indexWalk s.chunkEntries lru (now + tenMinutes) s.indexEntries with
    | error u =>
      rw [hiw] at h
      exact Option.noConfusion h
    | ok iws =>
      rw [hiw] at h
      have hr : r = ⟨lru, dirs, iws.deadIndices, iws.subs⟩ := (Option.some.inj h).symm
      have hnoi : ∀ e ∈ s.indexEntries, indexEntryAborts (now + tenMinutes) e = false :=
        foldIndex_no_abort s.chunkEntries lru (now + tenMinutes) s.indexEntries _ _ hiw
      obtain ⟨st', hiok, hmem⟩ := foldIndex_ok s.chunkEntries lru (now + tenMinutes)
        s.indexEntries ⟨[], []⟩ hnoi
      have hst' : st' = iws := by
        have h3 : indexWalk s.chunkEntries lru (now + tenMinutes) s.indexEntries
            = .ok st' := hiok
        rw [hiw] at h3
        exact (Except.ok.inj h3).symm
      refine ⟨hnoc, hnoi, by rw [hr]; exact hlru, ?_⟩
      intro p
      rw [hr]
      show p ∈ iws.deadIndices ↔ _
      rw [← hst', hmem p]
      simp

theorem gcOnce_complete (cacheSize : Nat) (now : Int) (s : StoreState)
    (hc : ∀ e ∈ s.chunkEntries, chunkEntryAborts e = false)
    (hi : ∀ e ∈ s.indexEntries, indexEntryAborts (now + tenMinutes) e = false) :
    ∃ r, gcOnce cacheSize now s = some r := by
  obtain ⟨d, hok⟩ := foldChunk_ok s.chunkEntries (NewLRU (gcMaxCacheSize cacheSize), 0) hc
  obtain ⟨st', hiok, -⟩ := foldIndex_ok s.chunkEntries
    (runOffers (NewLRU (gcMaxCacheSize cacheSize)) (s.chunkEntries.filterMap entryOffer))
    (now + tenMinutes) s.indexEntries ⟨[], []⟩ hi
  refine ⟨⟨runOffers (NewLRU (gcMaxCacheSize cacheSize)) (s.chunkEntries.filterMap entryOffer),
    d, st'.deadIndices, st'.subs⟩, ?_⟩
  rw [gcOnce]
  have hcw : chunkWalk s.chunkEntries (gcMaxCacheSize cacheSize)
      = .ok (runOffers (NewLRU (gcMaxCacheSize cacheSize))
        (s.chunkEntries.filterMap entryOffer), d) := hok
  rw [hcw]
  have hiw : indexWalk s.chunkEntries
      (runOffers (NewLRU (gcMaxCacheSize cacheSize)) (s.chunkEntries.filterMap entryOffer))
      (now + tenMinutes) s.indexEntries = .ok st' := hiok
  show (match indexWalk s.chunkEntries
      (runOffers (NewLRU (gcMaxCacheSize cacheSize)) (s.chunkEntries.filterMap entryOffer))
      (now + tenMinutes) s.indexEntries with
    | Except.error _ => (none : Option PassResult)
    | Except.ok iws => some ⟨runOffers (NewLRU (gcMaxCacheSize cacheSize))
        (s.chunkEntries.filterMap entryOffer), d, iws.deadIndices, iws.subs⟩) = _
  rw [hiw]

theorem gcActions_eq_none (cacheSize : Nat) (now : Int) (s : StoreState)
    (h : gcOnce cacheSize now s = none) : gcActions cacheSize now s = [] := by
  rw [gcActions, h]

theorem gcOnce_none_of_chunkErr (cacheSize : Nat) (now : Int) (s : StoreState)
    (h : chunkWalk s.chunkEntries (gcMaxCacheSize cacheSize) = .error ()) :
    gcOnce cacheSize now s = none := by
  rw [gcOnce, h]

theorem gcOnce_none_of_indexAbort (cacheSize : Nat) (now : Int) (s : StoreState)
    (e : IndexWalkEntry) (he : e ∈ s.indexEntries)
    (h : indexEntryAborts (now + tenMinutes) e = true) :
    gcOnce cacheSize now s = none := by
  rw [gcOnce]
  cases hcw : chunkWalk s.chunkEntries (gcMaxCacheSize cacheSize) with
  | error u => rfl
  | ok pr =>
    obtain ⟨lru, dirs⟩ := pr
    show (match indexWalk s.chunkEntries lru (now + tenMinutes) s.indexEntries with
      | Except.error _ => (none : Option PassResult)
      | Except.ok iws => some ⟨lru, dirs, iws.deadIndices, iws.subs⟩) = none
    cases hiw : indexWalk s.chunkEntries lru (now + tenMinutes) s.indexEntries with
    | error u => rfl
    | ok iws =>
      exfalso
      have hnoi := foldIndex_no_abort s.chunkEntries lru (now + tenMinutes)
        s.indexEntries _ _ hiw
      rw [hnoi e he] at h
      exact Bool.noConfusion h

/-! ### Claim theorems -/

/-- C2: for every sequence of chunks offered via Add, the live sequence is
kept in descending-mtime order; the eviction loop removes chunks only while
liveSize strictly exceeds liveSizeMax (at or under budget it does nothing);
and when the total size of the offered chunks equals liveSizeMax exactly,
nothing is evicted into dead. -/
theorem C2_lru_order_and_exact_budget (stats : List chunkStat) (max : Nat)
    (hmax : max < 2 ^ 63) (hsz : ∀ s ∈ stats, s.size < 2 ^ 63) :
    liveSorted (runOffers (NewLRU max) (stats.map Offer.add)).live ∧
    (∀ l : chunkLRU, l.liveSize ≤ l.liveSizeMax → l.evictLoop = l) ∧
    ((stats.map chunkStat.size).sum = max →
      (runOffers (NewLRU max) (stats.map Offer.add)).dead = []) := by
  refine ⟨runOffers_sorted _ _ (by simp [NewLRU, liveSorted]), evictLoop_id, ?_⟩
  intro htot
  have h := runAdds_no_evict stats (NewLRU max) (by simp [NewLRU]) hmax hsz
    (by simp only [NewLRU]; omega)
  exact h.1

/-- C2 witness: two chunks of size 4 with budget 8 (= total size exactly):
live stays sorted and nothing is evicted. -/
theorem C2_witness :
    liveSorted (runOffers (NewLRU 8)
      ([⟨"aa", 4, 5⟩, ⟨"bb", 4, 7⟩].map Offer.add)).live ∧
    (∀ l : chunkLRU, l.liveSize ≤ l.liveSizeMax → l.evictLoop = l) ∧
    (((([⟨"aa", 4, 5⟩, ⟨"bb", 4, 7⟩] : List chunkStat).map chunkStat.size).sum = 8) →
      (runOffers (NewLRU 8) ([⟨"aa", 4, 5⟩, ⟨"bb", 4, 7⟩].map Offer.add)).dead = []) :=
  C2_lru_order_and_exact_budget [⟨"aa", 4, 5⟩, ⟨"bb", 4, 7⟩] 8 (by decide) (by decide)

/-- C3: once all chunks have been offered (via Add or AddDead), liveSize is
at most liveSizeMax, every offered ChunkId ends up in live or in dead, and
no id is in both. -/
theorem C3_lru_partition (os : List Offer) (max : Nat) (hmax : max < 2 ^ 63)
    (hsz : ∀ o ∈ os, o.stat.size < 2 ^ 63) (hnd : (offeredIds os).Nodup) :
    (runOffers (NewLRU max) os).liveSize ≤ max ∧
    (∀ o ∈ os, o.stat.id ∈ (runOffers (NewLRU max) os).live.map chunkStat.id ∨
      o.stat.id ∈ (runOffers (NewLRU max) os).dead) ∧
    (∀ id, ¬(id ∈ (runOffers (NewLRU max) os).live.map chunkStat.id ∧
      id ∈ (runOffers (NewLRU max) os).dead)) := by
  obtain ⟨hg, hle, hmaxeq⟩ := runOffers_good os max hmax hsz hnd
  refine ⟨le_trans hle (le_of_eq hmaxeq), ?_, ?_⟩
  · intro o ho
    exact hg.coverO o.stat.id (List.mem_map_of_mem _ ho)
  · intro id hid
    exact hg.disj id hid.1 hid.2

/-- C3 witness: one Add and one AddDead offer with distinct ids under a
budget of 8. -/
theorem C3_witness :
    (runOffers (NewLRU 8) [Offer.add ⟨"aa", 4, 5⟩, Offer.addDead ⟨"bb", 4, 7⟩]).liveSize ≤ 8 ∧
    (∀ o ∈ [Offer.add ⟨"aa", 4, 5⟩, Offer.addDead ⟨"bb", 4, 7⟩],
      o.stat.id ∈ (runOffers (NewLRU 8)
        [Offer.add ⟨"aa", 4, 5⟩, Offer.addDead ⟨"bb", 4, 7⟩]).live.map chunkStat.id ∨
      o.stat.id ∈ (runOffers (NewLRU 8)
        [Offer.add ⟨"aa", 4, 5⟩, Offer.addDead ⟨"bb", 4, 7⟩]).dead) ∧
    (∀ id, ¬(id ∈ (runOffers (NewLRU 8)
        [Offer.add ⟨"aa", 4, 5⟩, Offer.addDead ⟨"bb", 4, 7⟩]).live.map chunkStat.id ∧
      id ∈ (runOffers (NewLRU 8) [Offer.add ⟨"aa", 4, 5⟩, Offer.addDead ⟨"bb", 4, 7⟩]).dead)) :=
  C3_lru_partition [Offer.add ⟨"aa", 4, 5⟩, Offer.addDead ⟨"bb", 4, 7⟩] 8
    (by decide) (by decide) (by decide)

/-- C5 (code bug): the claim that a not-found error reported during the
chunk-store walk is ignored fails in the code. gc.go:199 tests
`err == os.ErrNotExist` by interface identity, but filepath.Walk hands its
callback only *fs.PathError values (from os.Lstat and Readdirnames), never
the bare sentinel, so the error of a deletion race — a *fs.PathError
wrapping ENOENT — fails the test and aborts the pass: the callback aborts
on the race error and on every error value the walk can deliver, a walk
whose events end in the race error returns an error (discarding the pass),
and the ignoring branch is selected only by the sentinel value, which the
walk never delivers. -/
theorem C5_notfound_race_aborts :
    (∀ st : chunkLRU × Nat,
      chunkWalkStep st (.errEvent notFoundRace.toWalkErr) = .error ()) ∧
    (∀ (st : chunkLRU × Nat) (e : GoWalkError), walkDeliverable e = true →
      chunkWalkStep st (.errEvent e.toWalkErr) = .error ()) ∧
    (∀ e : GoWalkError, e.toWalkErr = WalkErr.notExist → walkDeliverable e = false) ∧
    (∀ (pre : List ChunkWalkEntry) (maxCacheSize : Nat),
      (∀ x ∈ pre, chunkEntryAborts x = false) →
      chunkWalk (pre ++ [.errEvent notFoundRace.toWalkErr]) maxCacheSize = .error ()) := by
  refine ⟨fun st => rfl, ?_, ?_, ?_⟩
  · intro st e he
    cases e with
    | sentinelNotExist => simp [walkDeliverable] at he
    | pathError b => rfl
  · intro e he
    cases e with
    | sentinelNotExist => rfl
    | pathError b => simp [GoWalkError.toWalkErr, eqErrNotExistSentinel] at he
  · intro pre maxCacheSize hpre
    obtain ⟨d, hfold⟩ := foldChunk_ok pre (NewLRU maxCacheSize, 0) hpre
    rw [chunkWalk, List.foldlM_append, hfold]
    rfl

/-- C5 witness: the ENOENT *fs.PathError of a deletion race is deliverable
and aborts both the callback and a concrete one-event walk, while the
ignoring branch fires only on the undeliverable bare sentinel. -/
theorem C5_witness :
    walkDeliverable notFoundRace = true ∧
    chunkWalkStep (NewLRU 8, 0) (.errEvent notFoundRace.toWalkErr) = .error () ∧
    walkDeliverable GoWalkError.sentinelNotExist = false ∧
    chunkWalk [ChunkWalkEntry.errEvent notFoundRace.toWalkErr] 8 = .error () :=
  ⟨by decide,
   C5_notfound_race_aborts.2.1 (NewLRU 8, 0) notFoundRace (by decide),
   C5_notfound_race_aborts.2.2.1 GoWalkError.sentinelNotExist (by decide),
   C5_notfound_race_aborts.2.2.2 [] 8 (by simp)⟩

/-- C4 (code bug): the code computes `ignoreBeforeTime = now + 10min`
(`time.Now().Add(10 * time.Minute)`), so an unknown-kind index file whose
mtime is `now` — newer than `now − 10min`, which the spec says must be
skipped entirely — is examined: it is loaded, submitted to the integrity
channel, and (here, being empty) marked dead. Only files dated more than
ten minutes into the future are skipped. -/
theorem C4_fresh_unknown_file_examined :
    goExt "leftover.data" ≠ ".nar" ∧ goExt "leftover.data" ≠ ".narinfo" ∧
    ((0 : Int) > 0 - tenMinutes) ∧
    indexWalkStep [] (NewLRU 0) ((0 : Int) + tenMinutes) ⟨[], []⟩
      (.file "leftover.data" 0 (some ⟨[]⟩) true)
      = .ok ⟨["leftover.data"], [("leftover.data", ⟨[]⟩)]⟩ ∧
    indexWalkStep [] (NewLRU 0) ((0 : Int) + tenMinutes) ⟨[], []⟩
      (.file "future.data" 700 (some ⟨[]⟩) true) = .ok ⟨[], []⟩ := by
  exact ⟨by decide, by decide, by decide, rfl, rfl⟩

/-- C7: if either walk fails, the pass aborts before performing any
deletion: the deletion trace is empty. -/
theorem C7_aborted_pass_deletes_nothing (cacheSize : Nat) (now : Int) (s : StoreState) :
    (chunkWalk s.chunkEntries (gcMaxCacheSize cacheSize) = .error () →
      gcActions cacheSize now s = []) ∧
    (∀ e ∈ s.indexEntries, indexEntryAborts (now + tenMinutes) e = true →
      gcActions cacheSize now s = []) := by
  constructor
  · intro h
    exact gcActions_eq_none _ _ _ (gcOnce_none_of_chunkErr _ _ _ h)
  · intro e he h
    exact gcActions_eq_none _ _ _ (gcOnce_none_of_indexAbort _ _ _ e he h)

/-- C7 witness: a store whose chunk walk reports a hard error, and a store
whose index walk reports an error event; both passes delete nothing. -/
theorem C7_witness :
    gcActions 1 0 ⟨[ChunkWalkEntry.errEvent WalkErr.other], []⟩ = [] ∧
    gcActions 1 0 ⟨[], [IndexWalkEntry.errEvent WalkErr.notExist]⟩ = [] :=
  ⟨(C7_aborted_pass_deletes_nothing 1 0 ⟨[ChunkWalkEntry.errEvent WalkErr.other], []⟩).1 rfl,
   (C7_aborted_pass_deletes_nothing 1 0 ⟨[], [IndexWalkEntry.errEvent WalkErr.notExist]⟩).2
     (IndexWalkEntry.errEvent WalkErr.notExist) (by simp) rfl⟩

/-- C8: in the deletion trace of any pass, every index removal precedes
every chunk removal. -/
theorem C8_indices_removed_before_chunks (cacheSize : Nat) (now : Int) (s : StoreState)
    (i j : Nat) (p : String) (id : ChunkId)
    (hi : (gcActions cacheSize now s)[i]? = some (GcAction.removeIndex p))
    (hj : (gcActions cacheSize now s)[j]? = some (GcAction.removeChunk id)) :
    i < j := by
  rw [gcActions] at hi hj
  cases hg : gcOnce cacheSize now s with
  | none =>
    rw [hg] at hi
    simp at hi
  | some r =>
    rw [hg] at hi hj
    replace hi : (r.deadIndices.map GcAction.removeIndex
        ++ r.lru.Dead.map GcAction.removeChunk)[i]? = some (GcAction.removeIndex p) := hi
    replace hj : (r.deadIndices.map GcAction.removeIndex
        ++ r.lru.Dead.map GcAction.removeChunk)[j]? = some (GcAction.removeChunk id) := hj
    rw [List.getElem?_append] at hi hj
    by_cases hiA : i < (r.deadIndices.map GcAction.removeIndex).length
    · by_cases hjA : j < (r.deadIndices.map GcAction.removeIndex).length
      · exfalso
        rw [if_pos hjA] at hj
        obtain ⟨hn, he⟩ := List.getElem?_eq_some.mp hj
        have hmem : GcAction.removeChunk id ∈ r.deadIndices.map GcAction.removeIndex :=
          he ▸ List.getElem_mem hn
        obtain ⟨x, -, hx⟩ := List.mem_map.mp hmem
        exact GcAction.noConfusion hx
      · omega
    · exfalso
      rw [if_neg hiA] at hi
      obtain ⟨hn, he⟩ := List.getElem?_eq_some.mp hi
      have hmem : GcAction.removeIndex p ∈ r.lru.Dead.map GcAction.removeChunk :=
        he ▸ List.getElem_mem hn
      obtain ⟨x, -, hx⟩ := List.mem_map.mp hmem
      exact GcAction.noConfusion hx

set_option maxRecDepth 8000 in
/-- C8 witness: a store with one dead chunk (fetch failure) and one dead
index (empty): the trace removes the index at position 0 and the chunk at
position 1. -/
theorem C8_witness :
    (gcActions 1 0 ⟨[ChunkWalkEntry.file (String.mk (List.replicate 64 'b') ++ ".cacnk") 4 7
        false], [IndexWalkEntry.file "z.narinfo" 0 (some ⟨[]⟩) false]⟩)[0]?
      = some (GcAction.removeIndex "z.narinfo") ∧
    (gcActions 1 0 ⟨[ChunkWalkEntry.file (String.mk (List.replicate 64 'b') ++ ".cacnk") 4 7
        false], [IndexWalkEntry.file "z.narinfo" 0 (some ⟨[]⟩) false]⟩)[1]?
      = some (GcAction.removeChunk (String.mk (List.replicate 64 'b'))) ∧
    (0 : Nat) < 1 := by
  refine ⟨?_, ?_, ?_⟩
  · decide
  · decide
  · exact C8_indices_removed_before_chunks 1 0
      ⟨[ChunkWalkEntry.file (String.mk (List.replicate 64 'b') ++ ".cacnk") 4 7 false],
        [IndexWalkEntry.file "z.narinfo" 0 (some ⟨[]⟩) false]⟩ 0 1
      "z.narinfo" (String.mk (List.replicate 64 'b')) (by decide) (by decide)

/-! ### Unconditional provenance of the dead set -/

theorem evictLoopF_live_subset (fuel : Nat) : ∀ l : chunkLRU,
    ∀ x ∈ (evictLoopF fuel l).live, x ∈ l.live := by
  induction fuel with
  | zero =>
    intro l x hx
    exact hx
  | succ fuel ih =>
    intro l x hx
    rw [evictLoopF] at hx
    by_cases hgt : l.liveSizeMax < l.liveSize
    · rw [if_pos hgt] at hx
      cases hlast : l.live.getLast? with
      | none =>
        rw [hlast] at hx
        exact hx
      | some die =>
        rw [hlast] at hx
        replace hx : x ∈ (evictLoopF fuel
          { l with
            live := l.live.dropLast
            dead := l.dead.insert die.id
            deadSize := u64add l.deadSize die.size
            liveSize := u64sub l.liveSize die.size }).live := hx
        exact (List.dropLast_sublist l.live).mem (ih _ x hx)
    · rw [if_neg hgt] at hx
      exact hx

theorem evictLoop_live_subset (l : chunkLRU) :
    ∀ x ∈ l.evictLoop.live, x ∈ l.live :=
  fun x hx => evictLoopF_live_subset l.live.length l x hx

theorem Add_live_subset (l : chunkLRU) (s : chunkStat) :
    ∀ x ∈ (l.Add s).live, x = s ∨ x ∈ l.live := by
  rw [chunkLRU.Add]
  intro x hx
  have h1 := evictLoop_live_subset _ x hx
  have hperm : List.Perm
      (l.live.take (searchLoop (l.isOlder s) 0 l.live.length) ++
        s :: l.live.drop (searchLoop (l.isOlder s) 0 l.live.length)) (s :: l.live) := by
    have h : List.Perm
        (l.live.take (searchLoop (l.isOlder s) 0 l.live.length) ++
          s :: l.live.drop (searchLoop (l.isOlder s) 0 l.live.length))
        (s :: (l.live.take (searchLoop (l.isOlder s) 0 l.live.length) ++
          l.live.drop (searchLoop (l.isOlder s) 0 l.live.length))) := List.perm_middle
    rwa [List.take_append_drop] at h
  exact List.mem_cons.mp (hperm.mem_iff.mp h1)

theorem Add_dead_subset (l : chunkLRU) (s : chunkStat) :
    ∀ id ∈ (l.Add s).dead, id ∈ l.dead ∨ id = s.id ∨ id ∈ l.live.map chunkStat.id := by
  intro id hid
  rw [chunkLRU.Add] at hid
  rcases evictLoop_dead_subset _ id hid with h1 | h2
  · exact Or.inl h1
  · obtain ⟨x, hx, hxid⟩ := List.mem_map.mp h2
    have hperm : List.Perm
        (l.live.take (searchLoop (l.isOlder s) 0 l.live.length) ++
          s :: l.live.drop (searchLoop (l.isOlder s) 0 l.live.length)) (s :: l.live) := by
      have h : List.Perm
          (l.live.take (searchLoop (l.isOlder s) 0 l.live.length) ++
            s :: l.live.drop (searchLoop (l.isOlder s) 0 l.live.length))
          (s :: (l.live.take (searchLoop (l.isOlder s) 0 l.live.length) ++
            l.live.drop (searchLoop (l.isOlder s) 0 l.live.length))) := List.perm_middle
      rwa [List.take_append_drop] at h
    rcases List.mem_cons.mp (hperm.mem_iff.mp hx) with he | hm
    · right
      left
      rw [← hxid, he]
    · right
      right
      rw [← hxid]
      exact List.mem_map_of_mem chunkStat.id hm

theorem runOffers_dead_subset (os : List Offer) : ∀ (l : chunkLRU) (id : ChunkId),
    id ∈ (runOffers l os).dead →
    id ∈ l.dead ∨ id ∈ l.live.map chunkStat.id ∨ id ∈ offeredIds os := by
  induction os with
  | nil =>
    intro l id h
    exact Or.inl h
  | cons o os ih =>
    intro l id h
    have hrun : runOffers l (o :: os) = runOffers (applyOffer l o) os := by
      simp [runOffers]
    rw [hrun] at h
    have hoff : offeredIds (o :: os) = o.stat.id :: offeredIds os := by
      simp [offeredIds]
    rcases ih (applyOffer l o) id h with h1 | h2 | h3
    · cases o with
      | add s =>
        rcases Add_dead_subset l s id h1 with ha | hb | hc
        · exact Or.inl ha
        · right; right
          rw [hoff, hb]
          exact List.mem_cons_self _ _
        · exact Or.inr (Or.inl hc)
      | addDead s =>
        rcases List.mem_insert_iff.mp h1 with ha | hb
        · right; right
          rw [hoff, ha]
          exact List.mem_cons_self _ _
        · exact Or.inl hb
    · cases o with
      | add s =>
        obtain ⟨x, hx, hxid⟩ := List.mem_map.mp h2
        rcases Add_live_subset l s x hx with he | hm
        · right; right
          rw [hoff, ← hxid, he]
          exact List.mem_cons_self _ _
        · right; left
          rw [← hxid]
          exact List.mem_map_of_mem chunkStat.id hm
      | addDead s =>
        exact Or.inr (Or.inl h2)
    · right; right
      rw [hoff]
      exact List.mem_cons_of_mem _ h3

/-- C10: a ChunkId never offered to the classifier is not dead: IsDead
returns false on it, and consequently the referential check of the index
walk never marks a (nonempty) index merely because its referenced chunks
are absent from disk (never enumerated, hence never offered). -/
theorem C10_unoffered_chunk_not_dead (os : List Offer) (max : Nat) (id : ChunkId)
    (hid : id ∉ offeredIds os) :
    (runOffers (NewLRU max) os).IsDead id = false ∧
    (∀ idx : Index, (∀ c ∈ idx.chunks, c.id ∉ offeredIds os) →
      referentialDead (runOffers (NewLRU max) os) idx = false) := by
  have hnot : ∀ x, x ∉ offeredIds os → (runOffers (NewLRU max) os).IsDead x = false := by
    intro x hx
    rw [chunkLRU.IsDead]
    cases hc : (runOffers (NewLRU max) os).dead.contains x with
    | false => rfl
    | true =>
      exfalso
      have hmem := List.elem_iff.mp hc
      rcases runOffers_dead_subset os (NewLRU max) x hmem with h1 | h2 | h3
      · simp [NewLRU] at h1
      · simp [NewLRU] at h2
      · exact hx h3
  refine ⟨hnot id hid, ?_⟩
  intro idx hall
  rw [referentialDead]
  cases hv : idx.chunks.any fun c => (runOffers (NewLRU max) os).IsDead c.id with
  | false => rfl
  | true =>
    exfalso
    obtain ⟨c, hc, hdead⟩ := List.any_eq_true.mp hv
    rw [hnot c.id (hall c hc)] at hdead
    exact Bool.noConfusion hdead

/-- C10 witness: an id absent from a one-offer sequence is not dead and
cannot cause a referential marking. -/
theorem C10_witness :
    (runOffers (NewLRU 8) [Offer.add ⟨"aa", 4, 5⟩]).IsDead "zz" = false ∧
    (∀ idx : Index, (∀ c ∈ idx.chunks,
        c.id ∉ offeredIds [Offer.add ⟨"aa", 4, 5⟩]) →
      referentialDead (runOffers (NewLRU 8) [Offer.add ⟨"aa", 4, 5⟩]) idx = false) :=
  C10_unoffered_chunk_not_dead [Offer.add ⟨"aa", 4, 5⟩] 8 "zz" (by decide)

/-! ### Chunk ids are 64-hex names, never .tmp-prefixed -/

theorem chunkIDFromString_valid (s : String) (id : ChunkId)
    (h : chunkIDFromString s = some id) :
    id.length = 64 ∧ id.toList.all isHexDigit = true := by
  rw [chunkIDFromString] at h
  by_cases hc : (s.length = 64 && s.toList.all isHexDigit) = true
  · rw [if_pos hc] at h
    have he := Option.some.inj h
    subst he
    simp only [Bool.and_eq_true, decide_eq_true_eq] at hc
    exact ⟨hc.1, hc.2⟩
  · rw [if_neg hc] at h
    exact Option.noConfusion h

theorem entryChunkId_valid (e : ChunkWalkEntry) (id : ChunkId)
    (h : entryChunkId e = some id) :
    id.length = 64 ∧ id.toList.all isHexDigit = true := by
  cases e with
  | errEvent we => simp [entryChunkId] at h
  | dir => simp [entryChunkId] at h
  | file name size mtime fetchOk =>
    rw [entryChunkId] at h
    by_cases htmp : tmpPrefixed name
    · rw [if_pos htmp] at h
      exact Option.noConfusion h
    · rw [if_neg htmp] at h
      by_cases hext : goExt name ≠ CompressedChunkExt
      · rw [if_pos hext] at h
        exact Option.noConfusion h
      · rw [if_neg hext] at h
        exact chunkIDFromString_valid _ _ h

theorem entryOffer_id (e : ChunkWalkEntry) (o : Offer) (h : entryOffer e = some o) :
    entryChunkId e = some o.stat.id := by
  cases e with
  | errEvent we => simp [entryOffer] at h
  | dir => simp [entryOffer] at h
  | file name size mtime fetchOk =>
    rw [entryOffer] at h
    cases hid : entryChunkId (.file name size mtime fetchOk) with
    | none =>
      rw [hid] at h
      exact Option.noConfusion h
    | some id =>
      rw [hid] at h
      have ho := Option.some.inj h
      rw [← ho]
      cases fetchOk <;> simp [Offer.stat]

theorem hex_id_not_tmp (id : ChunkId) (hlen : id.length = 64)
    (hhex : id.toList.all isHexDigit = true) (t : String) :
    tmpPrefixed (id ++ t) = false := by
  rw [tmpPrefixed]
  have hdata : (id ++ t).toList = id.toList ++ t.toList := by
    show (id ++ t).data = id.data ++ t.data
    exact String.data_append id t
  rw [hdata]
  cases hid : id.toList with
  | nil =>
    exfalso
    have : id.length = 0 := by
      show id.data.length = 0
      rw [show id.data = id.toList from rfl, hid]
      rfl
    omega
  | cons c rest =>
    have hc : isHexDigit c = true := by
      rw [hid] at hhex
      rw [List.all_cons, Bool.and_eq_true] at hhex
      exact hhex.1
    have hcne : ('.' == c) = false := by
      cases hv : ('.' == c) with
      | false => rfl
      | true =>
        exfalso
        have : '.' = c := beq_iff_eq.mp hv
        rw [← this] at hc
        exact absurd hc (by decide)
    show ((['.', 't', 'm', 'p'] : List Char).isPrefixOf (c :: rest ++ t.toList)) = false
    simp [List.isPrefixOf, hcne]

/-- The C6 claim as stated: the GC never deletes a file whose name begins
with `.tmp` — neither an index path passed to os.Remove nor the
`<id>.cacnk` file a RemoveChunk call unlinks. -/
def specClaimC6 (cacheSize : Nat) (now : Int) (s : StoreState) : Prop :=
  ∀ a ∈ gcActions cacheSize now s,
    (∀ p, a = GcAction.removeIndex p → tmpPrefixed (baseName p) = false) ∧
    (∀ id, a = GcAction.removeChunk id → tmpPrefixed (id ++ CompressedChunkExt) = false)

set_option maxRecDepth 8000 in
/-- C6 counterexample: the index walk has no `.tmp` check, so an in-flight
`.tmp`-prefixed file in the index directory that deserialises to an empty
index is marked dead and removed by os.Remove; the claim as stated fails. -/
theorem C6_counterexample :
    ¬ specClaimC6 1 0 ⟨[], [IndexWalkEntry.file ".tmp-x.nar" 0 (some ⟨[]⟩) false]⟩ := by
  intro h
  have hmem : GcAction.removeIndex ".tmp-x.nar"
      ∈ gcActions 1 0 ⟨[], [IndexWalkEntry.file ".tmp-x.nar" 0 (some ⟨[]⟩) false]⟩ := by
    decide
  have := (h (GcAction.removeIndex ".tmp-x.nar") hmem).1 ".tmp-x.nar" rfl
  revert this
  decide

/-- C6 amended: `.tmp`-prefixed files in the chunk store are never
classified (the chunk-walk callback skips them unchanged), and every chunk
removed by a completed pass is a 64-hex-named `<id>.cacnk` file, never
`.tmp`-prefixed; but the index walk has no such protection, so a
`.tmp`-prefixed index file can still be deleted (see the counterexample). -/
theorem C6_tmp_never_classified_chunk_walk (cacheSize : Nat) (now : Int) (s : StoreState)
    (st : chunkLRU × Nat) (name : String) (size : Nat) (mtime : Int) (fetchOk : Bool)
    (htmp : tmpPrefixed name = true) :
    chunkWalkStep st (.file name size mtime fetchOk) = .ok st ∧
    (∀ r, gcOnce cacheSize now s = some r →
      ∀ id ∈ r.lru.dead, tmpPrefixed (id ++ CompressedChunkExt) = false) := by
  constructor
  · rw [chunkWalkStep, if_pos htmp]
  · intro r hr id hid
    obtain ⟨-, -, hlru, -⟩ := gcOnce_some cacheSize now s r hr
    rw [hlru] at hid
    rcases runOffers_dead_subset _ _ id hid with h1 | h2 | h3
    · simp [NewLRU] at h1
    · simp [NewLRU] at h2
    · obtain ⟨o, ho, hoid⟩ := List.mem_map.mp h3
      obtain ⟨e, he, hoe⟩ := List.mem_filterMap.mp ho
      have hcid := entryOffer_id e o hoe
      obtain ⟨hlen, hhex⟩ := entryChunkId_valid e o.stat.id hcid
      rw [← hoid]
      exact hex_id_not_tmp o.stat.id hlen hhex CompressedChunkExt

set_option maxRecDepth 8000 in
/-- C6 witness: a `.tmp`-prefixed chunk file is skipped unchanged, and the
completed pass of the C8-style store removes only hex-named chunk files. -/
theorem C6_witness :
    chunkWalkStep (NewLRU 8, 0) (.file ".tmp-q.cacnk" 4 7 true) = .ok (NewLRU 8, 0) ∧
    (∀ r, gcOnce 1 0 ⟨[], []⟩ = some r →
      ∀ id ∈ r.lru.dead, tmpPrefixed (id ++ CompressedChunkExt) = false) :=
  C6_tmp_never_classified_chunk_walk 1 0 ⟨[], []⟩ (NewLRU 8, 0)
    ".tmp-q.cacnk" 4 7 true (by decide)

/-! ### C1: surviving indices and surviving chunks -/

/-- A chunk survives the pass if its file is still enumerated on disk after
the deletions. -/
def chunkSurvives (s : StoreState) (r : PassResult) (id : ChunkId) : Prop :=
  ∃ e ∈ (applyPass r s).chunkEntries, entryChunkId e = some id

/-- The C1 claim as stated: after a completed pass, every surviving index
file references only chunks that survive the pass (no deleted and no absent
chunk). -/
def specClaimC1 (cacheSize : Nat) (now : Int) (s : StoreState) : Prop :=
  ∀ r, gcOnce cacheSize now s = some r →
    ∀ path mtime idx contentOk,
      IndexWalkEntry.file path mtime (some idx) contentOk ∈ s.indexEntries →
      path ∉ r.deadIndices →
      ∀ c ∈ idx.chunks, chunkSurvives s r c.id

set_option maxRecDepth 8000 in
/-- C1 counterexample: an old unknown-kind index file (examined, loadable,
nonempty) that references a chunk absent from disk survives the pass — the
referential check only consults the dead set (absent chunks are never
offered, C10) and the integrity switch has no case for unknown extensions —
so a surviving index references a chunk that does not survive. -/
theorem C1_counterexample :
    ¬ specClaimC1 1 0 ⟨[], [IndexWalkEntry.file "idx.data" 0
      (some ⟨[⟨String.mk (List.replicate 64 'a'), 0, 1⟩]⟩) true]⟩ := by
  intro h
  have hpass := h
    ⟨⟨[], 0, gcMaxCacheSize 1, [], 0⟩, 0, [],
      [("idx.data", ⟨[⟨String.mk (List.replicate 64 'a'), 0, 1⟩]⟩)]⟩
    (by decide) "idx.data" 0 ⟨[⟨String.mk (List.replicate 64 'a'), 0, 1⟩]⟩ true
    (by decide) (by decide) ⟨String.mk (List.replicate 64 'a'), 0, 1⟩ (by decide)
  obtain ⟨e, he, -⟩ := hpass
  exact absurd he (List.not_mem_nil e)

/-- C1 amended: after a completed pass, every surviving examined index
references no chunk in the dead set (so nothing the pass deletes); and a
surviving examined index of kind `.nar` or `.narinfo` references only live
chunks (present and kept). Unknown-kind surviving indices may still
reference absent chunks (see the counterexample). -/
theorem C1_surviving_index_refs (cacheSize : Nat) (now : Int) (s : StoreState) (r : PassResult)
    (hmax : gcMaxCacheSize cacheSize < 2 ^ 63)
    (hsz : ∀ o ∈ s.chunkEntries.filterMap entryOffer, o.stat.size < 2 ^ 63)
    (hnd : (offeredIds (s.chunkEntries.filterMap entryOffer)).Nodup)
    (h : gcOnce cacheSize now s = some r)
    (path : String) (mtime : Int) (idx : Index) (contentOk : Bool)
    (hmem : IndexWalkEntry.file path mtime (some idx) contentOk ∈ s.indexEntries)
    (hex : indexEntryExamined (now + tenMinutes) (.file path mtime (some idx) contentOk) = true)
    (hsurv : path ∉ r.deadIndices) :
    (∀ c ∈ idx.chunks, c.id ∉ r.lru.dead) ∧
    ((goExt path = ".nar" ∨ goExt path = ".narinfo") →
      ∀ c ∈ idx.chunks, c.id ∈ r.lru.live.map chunkStat.id) := by
  obtain ⟨hnoc, hnoi, hlru, hdead⟩ := gcOnce_some cacheSize now s r h
  have hnm : entryMarks s.chunkEntries r.lru (now + tenMinutes) path
      (.file path mtime (some idx) contentOk) = false := by
    cases hv : entryMarks s.chunkEntries r.lru (now + tenMinutes) path
        (.file path mtime (some idx) contentOk) with
    | false => rfl
    | true =>
      exfalso
      exact hsurv ((hdead path).mpr ⟨_, hmem, hv⟩)
  rw [entryMarks, hex] at hnm
  simp only [Bool.true_and, decide_eq_true_eq, Bool.and_eq_false_iff,
    Bool.or_eq_false_iff] at hnm
  have hnm' : workerMark s.chunkEntries path idx contentOk = false ∧
      referentialDead r.lru idx = false := by
    rcases hnm with h1 | h2
    · exfalso
      simp at h1
    · exact ⟨h2.1.1, h2.2⟩
  obtain ⟨hw, href⟩ := hnm'
  have hall : ∀ c ∈ idx.chunks, r.lru.IsDead c.id = false := by
    intro c hc
    cases hv : r.lru.IsDead c.id with
    | false => rfl
    | true =>
      exfalso
      rw [referentialDead] at href
      rw [List.any_eq_true.mpr ⟨c, hc, hv⟩] at href
      exact Bool.noConfusion href
  have hnotdead : ∀ c ∈ idx.chunks, c.id ∉ r.lru.dead := by
    intro c hc hmemdead
    have hv := hall c hc
    have hcont : r.lru.dead.contains c.id = true := List.elem_iff.mpr hmemdead
    rw [chunkLRU.IsDead, hcont] at hv
    exact Bool.noConfusion hv
  refine ⟨hnotdead, ?_⟩
  intro hkind c hc
  have hak : (assembleOk s.chunkEntries idx && contentOk) = true := by
    rw [workerMark] at hw
    rcases hkind with hnar | hinfo
    · rw [if_pos hnar] at hw
      cases hv : (assembleOk s.chunkEntries idx && contentOk) with
      | true => rfl
      | false =>
        rw [hv] at hw
        exact Bool.noConfusion hw
    · by_cases hnar : goExt path = ".nar"
      · rw [if_pos hnar] at hw
        cases hv : (assembleOk s.chunkEntries idx && contentOk) with
        | true => rfl
        | false =>
          rw [hv] at hw
          exact Bool.noConfusion hw
      · rw [if_neg hnar, if_pos hinfo] at hw
        cases hv : (assembleOk s.chunkEntries idx && contentOk) with
        | true => rfl
        | false =>
          rw [hv] at hw
          exact Bool.noConfusion hw
  have hfet : storeFetchable s.chunkEntries c.id = true := by
    rw [assembleOk, Bool.and_eq_true] at hak
    exact (List.all_eq_true.mp hak.1) c hc
  rw [storeFetchable] at hfet
  obtain ⟨e, he, hev⟩ := List.any_eq_true.mp hfet
  cases e with
  | errEvent we => simp at hev
  | dir => simp at hev
  | file name sz mt fOk =>
    simp only [Bool.and_eq_true, decide_eq_true_eq] at hev
    obtain ⟨hcid, hfok⟩ := hev
    subst hfok
    have hoe : entryOffer (.file name sz mt true) = some (Offer.add ⟨c.id, sz, mt⟩) := by
      rw [entryOffer, hcid]
      simp
    have hoffmem : Offer.add ⟨c.id, sz, mt⟩ ∈ s.chunkEntries.filterMap entryOffer :=
      List.mem_filterMap.mpr ⟨_, he, hoe⟩
    obtain ⟨hg, -, -⟩ := runOffers_good (s.chunkEntries.filterMap entryOffer)
      (gcMaxCacheSize cacheSize) hmax hsz hnd
    have hlive := hg.addLive ⟨c.id, sz, mt⟩ hoffmem
      (by rw [← hlru]; exact hnotdead c hc)
    rw [hlru]
    exact List.mem_map_of_mem chunkStat.id (hlive)

set_option maxRecDepth 8000 in
/-- C1 witness: a store with one fetchable chunk and one `.nar` index
referencing it; the surviving index references only live chunks. -/
theorem C1_witness :
    (∀ c ∈ (Index.mk [⟨String.mk (List.replicate 64 'a'), 0, 4⟩]).chunks,
      c.id ∉ (PassResult.mk ⟨[⟨String.mk (List.replicate 64 'a'), 4, 5⟩], 4,
        gcMaxCacheSize 1, [], 0⟩ 0 []
        [("x.nar", ⟨[⟨String.mk (List.replicate 64 'a'), 0, 4⟩]⟩)]).lru.dead) ∧
    ((goExt "x.nar" = ".nar" ∨ goExt "x.nar" = ".narinfo") →
      ∀ c ∈ (Index.mk [⟨String.mk (List.replicate 64 'a'), 0, 4⟩]).chunks,
        c.id ∈ (PassResult.mk ⟨[⟨String.mk (List.replicate 64 'a'), 4, 5⟩], 4,
          gcMaxCacheSize 1, [], 0⟩ 0 []
          [("x.nar", ⟨[⟨String.mk (List.replicate 64 'a'), 0, 4⟩]⟩)]).lru.live.map
            chunkStat.id) :=
  C1_surviving_index_refs 1 0
    ⟨[ChunkWalkEntry.file (String.mk (List.replicate 64 'a') ++ ".cacnk") 4 5 true],
      [IndexWalkEntry.file "x.nar" 0
        (some ⟨[⟨String.mk (List.replicate 64 'a'), 0, 4⟩]⟩) true]⟩
    (PassResult.mk ⟨[⟨String.mk (List.replicate 64 'a'), 4, 5⟩], 4,
      gcMaxCacheSize 1, [], 0⟩ 0 []
      [("x.nar", ⟨[⟨String.mk (List.replicate 64 'a'), 0, 4⟩]⟩)])
    (by decide) (by decide) (by decide) (by decide)
    "x.nar" 0 ⟨[⟨String.mk (List.replicate 64 'a'), 0, 4⟩]⟩ true
    (by decide) (by decide) (by decide)

/-! ### C9 helpers: transport of per-index facts to the post-deletion store -/

theorem referentialDead_nil_dead (l : chunkLRU) (hd : l.dead = []) (idx : Index) :
    referentialDead l idx = false := by
  rw [referentialDead]
  cases hv : idx.chunks.any fun c => l.IsDead c.id with
  | false => rfl
  | true =>
    exfalso
    obtain ⟨c, hc, hdead⟩ := List.any_eq_true.mp hv
    rw [chunkLRU.IsDead, hd] at hdead
    simp at hdead

theorem referentialDead_false_notdead (l : chunkLRU) (idx : Index)
    (h : referentialDead l idx = false) :
    ∀ c ∈ idx.chunks, c.id ∉ l.dead := by
  intro c hc hmem
  rw [referentialDead] at h
  have hv : idx.chunks.any (fun c => l.IsDead c.id) = true :=
    List.any_eq_true.mpr ⟨c, hc, by rw [chunkLRU.IsDead]; exact List.elem_iff.mpr hmem⟩
  rw [hv] at h
  exact Bool.noConfusion h

theorem storeFetchable_filter (cs : List ChunkWalkEntry) (deadIds : List ChunkId) (id : ChunkId)
    (hf : storeFetchable cs id = true) (hnd : id ∉ deadIds) :
    storeFetchable (cs.filter fun e => !(chunkFileDead deadIds e)) id = true := by
  rw [storeFetchable] at hf ⊢
  obtain ⟨e, he, hev⟩ := List.any_eq_true.mp hf
  refine List.any_eq_true.mpr ⟨e, ?_, hev⟩
  refine List.mem_filter.mpr ⟨he, ?_⟩
  cases e with
  | errEvent we => simp at hev
  | dir => simp at hev
  | file name sz mt fOk =>
    simp only [Bool.and_eq_true, decide_eq_true_eq] at hev
    obtain ⟨hcid, -⟩ := hev
    have hcfd : chunkFileDead deadIds (.file name sz mt fOk) = deadIds.contains id := by
      rw [chunkFileDead, hcid]
    show (!(chunkFileDead deadIds (.file name sz mt fOk))) = true
    rw [hcfd]
    cases hv : deadIds.contains id with
    | false => rfl
    | true => exact absurd (List.elem_iff.mp hv) hnd

theorem workerMark_filter_false (cs : List ChunkWalkEntry) (deadIds : List ChunkId)
    (path : String) (idx : Index) (contentOk : Bool)
    (hw : workerMark cs path idx contentOk = false)
    (hnd : ∀ c ∈ idx.chunks, c.id ∉ deadIds) :
    workerMark (cs.filter fun e => !(chunkFileDead deadIds e)) path idx contentOk = false := by
  rw [workerMark] at hw ⊢
  by_cases hnar : goExt path = ".nar"
  · rw [if_pos hnar] at hw ⊢
    have hw' : (assembleOk cs idx && contentOk) = true := by
      cases hv : (assembleOk cs idx && contentOk) with
      | true => rfl
      | false =>
        rw [hv] at hw
        exact Bool.noConfusion hw
    rw [Bool.and_eq_true] at hw'
    have hax : assembleOk (cs.filter fun e => !(chunkFileDead deadIds e)) idx = true := by
      rw [assembleOk, List.all_eq_true]
      intro c hc
      exact storeFetchable_filter cs deadIds c.id
        ((List.all_eq_true.mp (by rw [assembleOk] at hw'; exact hw'.1)) c hc) (hnd c hc)
    simp [hax, hw'.2]
  · rw [if_neg hnar] at hw ⊢
    by_cases hinfo : goExt path = ".narinfo"
    · rw [if_pos hinfo] at hw ⊢
      have hw' : (assembleOk cs idx && contentOk) = true := by
        cases hv : (assembleOk cs idx && contentOk) with
        | true => rfl
        | false =>
          rw [hv] at hw
          exact Bool.noConfusion hw
      rw [Bool.and_eq_true] at hw'
      have hax : assembleOk (cs.filter fun e => !(chunkFileDead deadIds e)) idx = true := by
        rw [assembleOk, List.all_eq_true]
        intro c hc
        exact storeFetchable_filter cs deadIds c.id
          ((List.all_eq_true.mp (by rw [assembleOk] at hw'; exact hw'.1)) c hc) (hnd c hc)
      simp [hax, hw'.2]
    · rw [if_neg hinfo]

theorem offers_all_add_eq (os : List Offer)
    (h : ∀ o ∈ os, ∃ s0, o = Offer.add s0) :
    (os.map Offer.stat).map Offer.add = os := by
  induction os with
  | nil => rfl
  | cons o os ih =>
    simp only [List.map_cons]
    obtain ⟨s0, hs0⟩ := h o (by simp)
    have h1 : Offer.add o.stat = o := by
      rw [hs0]
      rfl
    rw [h1, ih (fun x hx => h x (by simp [hx]))]

/-- C9: two passes back-to-back on a quiescent store (no concurrent
changes: the second pass sees exactly the first pass's store minus its
deletions, at the same time point, and all deletions succeeded): the second
pass completes with an empty dead chunk set and an empty DeadIndexSet. -/
theorem C9_second_pass_deletes_nothing (cacheSize : Nat) (now : Int) (s : StoreState)
    (r : PassResult)
    (hmax : gcMaxCacheSize cacheSize < 2 ^ 63)
    (hsz : ∀ o ∈ s.chunkEntries.filterMap entryOffer, o.stat.size < 2 ^ 63)
    (hnd : (offeredIds (s.chunkEntries.filterMap entryOffer)).Nodup)
    (h : gcOnce cacheSize now s = some r) :
    ∃ r2, gcOnce cacheSize now (applyPass r s) = some r2 ∧
      r2.lru.dead = [] ∧ r2.deadIndices = [] := by
  obtain ⟨hnoc, hnoi, hlru, hdead⟩ := gcOnce_some cacheSize now s r h
  obtain ⟨hg, hle, hmaxeq⟩ := runOffers_good (s.chunkEntries.filterMap entryOffer)
    (gcMaxCacheSize cacheSize) hmax hsz hnd
  have hc2 : ∀ e ∈ (applyPass r s).chunkEntries, chunkEntryAborts e = false :=
    fun e he => hnoc e (List.mem_of_mem_filter he)
  have hi2 : ∀ e ∈ (applyPass r s).indexEntries,
      indexEntryAborts (now + tenMinutes) e = false :=
    fun e he => hnoi e (List.mem_of_mem_filter he)
  obtain ⟨r2, hr2⟩ := gcOnce_complete cacheSize now (applyPass r s) hc2 hi2
  obtain ⟨-, -, hlru2, hdead2⟩ := gcOnce_some cacheSize now (applyPass r s) r2 hr2
  have hsub : List.Sublist ((applyPass r s).chunkEntries.filterMap entryOffer)
      (s.chunkEntries.filterMap entryOffer) :=
    (List.filter_sublist s.chunkEntries).filterMap entryOffer
  -- every surviving classified chunk is an Add of a live pass-1 stat
  have hoff2_live : ∀ o ∈ (applyPass r s).chunkEntries.filterMap entryOffer,
      ∃ s0, o = Offer.add s0 ∧ s0 ∈ r.lru.live := by
    intro o ho
    obtain ⟨e, he, hoe⟩ := List.mem_filterMap.mp ho
    have he1 : e ∈ s.chunkEntries := List.mem_of_mem_filter he
    have hkeepb := List.of_mem_filter he
    have hkeep : chunkFileDead r.lru.dead e = false := by
      cases hv : chunkFileDead r.lru.dead e with
      | false => rfl
      | true =>
        rw [hv] at hkeepb
        exact Bool.noConfusion hkeepb
    have hcid := entryOffer_id e o hoe
    have hcfd : chunkFileDead r.lru.dead e = r.lru.dead.contains o.stat.id := by
      rw [chunkFileDead, hcid]
    have hnotdead : o.stat.id ∉ r.lru.dead := by
      intro hmem
      have hcont : r.lru.dead.contains o.stat.id = true := List.elem_iff.mpr hmem
      rw [hcfd, hcont] at hkeep
      exact Bool.noConfusion hkeep
    have ho1 : o ∈ s.chunkEntries.filterMap entryOffer :=
      List.mem_filterMap.mpr ⟨e, he1, hoe⟩
    cases o with
    | addDead s0 =>
      exfalso
      have hds := hg.deadStat s0 ho1
      exact hnotdead (by rw [hlru]; exact hds)
    | add s0 =>
      refine ⟨s0, rfl, ?_⟩
      have hal := hg.addLive s0 ho1 (fun hmem => hnotdead (by rw [hlru]; exact hmem))
      rw [hlru]
      exact hal
  -- every live pass-1 stat is still offered (as an Add) in pass 2
  have hlive_off2 : ∀ s0 ∈ r.lru.live,
      Offer.add s0 ∈ (applyPass r s).chunkEntries.filterMap entryOffer := by
    intro s0 hs0
    have hs0' : s0 ∈ (runOffers (NewLRU (gcMaxCacheSize cacheSize))
        (s.chunkEntries.filterMap entryOffer)).live := by
      rw [← hlru]
      exact hs0
    have hadd : Offer.add s0 ∈ s.chunkEntries.filterMap entryOffer := hg.liveMem s0 hs0'
    obtain ⟨e, he, hoe⟩ := List.mem_filterMap.mp hadd
    have hcid := entryOffer_id e (Offer.add s0) hoe
    have hnotdead : s0.id ∉ r.lru.dead := by
      rw [hlru]
      exact hg.disj s0.id (List.mem_map_of_mem chunkStat.id hs0')
    have hcfd : chunkFileDead r.lru.dead e = r.lru.dead.contains s0.id := by
      rw [chunkFileDead, hcid]
      rfl
    have hkeep : chunkFileDead r.lru.dead e = false := by
      rw [hcfd]
      cases hv : r.lru.dead.contains s0.id with
      | false => rfl
      | true => exact absurd (List.elem_iff.mp hv) hnotdead
    have he2 : e ∈ (applyPass r s).chunkEntries := by
      show e ∈ s.chunkEntries.filter fun e => !(chunkFileDead r.lru.dead e)
      refine List.mem_filter.mpr ⟨he, ?_⟩
      rw [hkeep]
      rfl
    exact List.mem_filterMap.mpr ⟨e, he2, hoe⟩
  -- the pass-2 stats are exactly the pass-1 live stats
  have hstats_mem : ∀ x,
      x ∈ ((applyPass r s).chunkEntries.filterMap entryOffer).map Offer.stat ↔
        x ∈ r.lru.live := by
    intro x
    constructor
    · intro hx
      obtain ⟨o, ho, hox⟩ := List.mem_map.mp hx
      obtain ⟨s0, hos0, hs0live⟩ := hoff2_live o ho
      rw [← hox, hos0]
      exact hs0live
    · intro hx
      exact List.mem_map.mpr ⟨Offer.add x, hlive_off2 x hx, rfl⟩
  have hoffid2 : offeredIds ((applyPass r s).chunkEntries.filterMap entryOffer)
      = (((applyPass r s).chunkEntries.filterMap entryOffer).map Offer.stat).map
          chunkStat.id := by
    rw [offeredIds, List.map_map]
    rfl
  have hidnd2 : (offeredIds ((applyPass r s).chunkEntries.filterMap entryOffer)).Nodup :=
    hnd.sublist (hsub.map _)
  have hnodup2 : (((applyPass r s).chunkEntries.filterMap entryOffer).map Offer.stat).Nodup := by
    rw [hoffid2] at hidnd2
    exact hidnd2.of_map chunkStat.id
  have hlivenodup : r.lru.live.Nodup := by
    have := hg.nodupLive.of_map chunkStat.id
    rw [hlru]
    exact this
  have hperm : List.Perm
      (((applyPass r s).chunkEntries.filterMap entryOffer).map Offer.stat) r.lru.live :=
    (List.perm_ext_iff_of_nodup hnodup2 hlivenodup).mpr hstats_mem
  have hsum2 : (((((applyPass r s).chunkEntries.filterMap entryOffer).map Offer.stat).map
      chunkStat.size)).sum = r.lru.liveSize := by
    rw [(hperm.map chunkStat.size).sum_eq, hlru]
    exact hg.liveSize_eq.symm
  have hall2 : ∀ o ∈ (applyPass r s).chunkEntries.filterMap entryOffer,
      ∃ s0, o = Offer.add s0 :=
    fun o ho => (hoff2_live o ho).imp (fun s0 hh => hh.1)
  have hoffers2eq : ((((applyPass r s).chunkEntries.filterMap entryOffer).map Offer.stat).map
      Offer.add) = (applyPass r s).chunkEntries.filterMap entryOffer :=
    offers_all_add_eq _ hall2
  have hsz2 : ∀ x ∈ ((applyPass r s).chunkEntries.filterMap entryOffer).map Offer.stat,
      x.size < 2 ^ 63 := by
    intro x hx
    have hxl := (hstats_mem x).mp hx
    rw [hlru] at hxl
    exact hg.sizes_lt x hxl
  have hbudget : (NewLRU (gcMaxCacheSize cacheSize)).liveSize +
      ((((applyPass r s).chunkEntries.filterMap entryOffer).map Offer.stat).map
        chunkStat.size).sum ≤ (NewLRU (gcMaxCacheSize cacheSize)).liveSizeMax := by
    show 0 + _ ≤ gcMaxCacheSize cacheSize
    rw [hsum2, hlru]
    have := le_trans hle (le_of_eq hmaxeq)
    omega
  have hnoev := runAdds_no_evict
    (((applyPass r s).chunkEntries.filterMap entryOffer).map Offer.stat)
    (NewLRU (gcMaxCacheSize cacheSize)) (by simp [NewLRU]) hmax hsz2 hbudget
  have hdead2nil : r2.lru.dead = [] := by
    rw [hlru2, ← hoffers2eq, hnoev.1]
    rfl
  -- no entry marks anything in pass 2
  have hdi2 : r2.deadIndices = [] := by
    rw [List.eq_nil_iff_forall_not_mem]
    intro p hp
    obtain ⟨e, he, hmk⟩ := (hdead2 p).mp hp
    cases e with
    | errEvent we => simp [entryMarks] at hmk
    | dir => simp [entryMarks] at hmk
    | file path mtime load contentOk =>
      cases load with
      | none => simp [entryMarks] at hmk
      | some idx =>
        rw [entryMarks] at hmk
        rw [Bool.and_eq_true, Bool.and_eq_true] at hmk
        obtain ⟨⟨hex, -⟩, hdisj⟩ := hmk
        have he1 : IndexWalkEntry.file path mtime (some idx) contentOk ∈ s.indexEntries :=
          List.mem_of_mem_filter he
        have hkeepb := List.of_mem_filter he
        have hkeep : indexFileRemoved r.deadIndices
            (.file path mtime (some idx) contentOk) = false := by
          cases hv : indexFileRemoved r.deadIndices (.file path mtime (some idx) contentOk) with
          | false => rfl
          | true =>
            rw [hv] at hkeepb
            exact Bool.noConfusion hkeepb
        have hsurv : path ∉ r.deadIndices := by
          intro hmem
          have : indexFileRemoved r.deadIndices (.file path mtime (some idx) contentOk)
              = true := by
            rw [indexFileRemoved]
            exact List.elem_iff.mpr hmem
          rw [this] at hkeep
          exact Bool.noConfusion hkeep
        have hnm1 : entryMarks s.chunkEntries r.lru (now + tenMinutes) path
            (.file path mtime (some idx) contentOk) = false := by
          cases hv : entryMarks s.chunkEntries r.lru (now + tenMinutes) path
              (.file path mtime (some idx) contentOk) with
          | false => rfl
          | true => exact absurd ((hdead path).mpr ⟨_, he1, hv⟩) hsurv
        rw [entryMarks, hex] at hnm1
        simp only [Bool.true_and, decide_eq_true_eq, Bool.and_eq_false_iff,
          Bool.or_eq_false_iff] at hnm1
        have hnm1' : workerMark s.chunkEntries path idx contentOk = false ∧
            decide (idx.chunks.length = 0) = false ∧
            referentialDead r.lru idx = false := by
          rcases hnm1 with h1 | h2
          · exfalso
            simp at h1
          · exact ⟨h2.1.1, h2.1.2, h2.2⟩
        obtain ⟨hw1, hemp1, href1⟩ := hnm1'
        have hnotdead := referentialDead_false_notdead r.lru idx href1
        simp only [Bool.or_eq_true] at hdisj
        rcases hdisj with (hw2 | hemp2) | href2
        · have hw2' := workerMark_filter_false s.chunkEntries r.lru.dead path idx
            contentOk hw1 hnotdead
          replace hw2 : workerMark (s.chunkEntries.filter fun e =>
              !(chunkFileDead r.lru.dead e)) path idx contentOk = true := hw2
          rw [hw2'] at hw2
          exact Bool.noConfusion hw2
        · rw [hemp1] at hemp2
          exact Bool.noConfusion hemp2
        · rw [referentialDead_nil_dead r2.lru hdead2nil idx] at href2
          exact Bool.noConfusion href2
  exact ⟨r2, hr2, hdead2nil, hdi2⟩

set_option maxRecDepth 8000 in
/-- C9 witness: a store with one live chunk, one dead chunk, a surviving
index and a dead index; after the first pass's deletions, the second pass
deletes nothing. -/
theorem C9_witness :
    ∃ r2, gcOnce 1 0 (applyPass
      ⟨⟨[⟨String.mk (List.replicate 64 'a'), 4, 5⟩], 4, gcMaxCacheSize 1,
          [String.mk (List.replicate 64 'b')], 4⟩, 0, ["y.nar"],
        [("x.nar", ⟨[⟨String.mk (List.replicate 64 'a'), 0, 4⟩]⟩),
          ("y.nar", ⟨[⟨String.mk (List.replicate 64 'b'), 0, 4⟩]⟩)]⟩
      ⟨[ChunkWalkEntry.file (String.mk (List.replicate 64 'a') ++ ".cacnk") 4 5 true,
          ChunkWalkEntry.file (String.mk (List.replicate 64 'b') ++ ".cacnk") 4 7 false],
        [IndexWalkEntry.file "x.nar" 0
            (some ⟨[⟨String.mk (List.replicate 64 'a'), 0, 4⟩]⟩) true,
          IndexWalkEntry.file "y.nar" 0
            (some ⟨[⟨String.mk (List.replicate 64 'b'), 0, 4⟩]⟩) true]⟩) = some r2 ∧
      r2.lru.dead = [] ∧ r2.deadIndices = [] :=
  C9_second_pass_deletes_nothing 1 0
    ⟨[ChunkWalkEntry.file (String.mk (List.replicate 64 'a') ++ ".cacnk") 4 5 true,
        ChunkWalkEntry.file (String.mk (List.replicate 64 'b') ++ ".cacnk") 4 7 false],
      [IndexWalkEntry.file "x.nar" 0
          (some ⟨[⟨String.mk (List.replicate 64 'a'), 0, 4⟩]⟩) true,
        IndexWalkEntry.file "y.nar" 0
          (some ⟨[⟨String.mk (List.replicate 64 'b'), 0, 4⟩]⟩) true]⟩
    ⟨⟨[⟨String.mk (List.replicate 64 'a'), 4, 5⟩], 4, gcMaxCacheSize 1,
        [String.mk (List.replicate 64 'b')], 4⟩, 0, ["y.nar"],
      [("x.nar", ⟨[⟨String.mk (List.replicate 64 'a'), 0, 4⟩]⟩),
        ("y.nar", ⟨[⟨String.mk (List.replicate 64 'b'), 0, 4⟩]⟩)]⟩
    (by decide) (by decide) (by decide) (by decide)

end Spongix
